import Mathlib

/-!
Verification development for the cirkit multi-representation Boolean network
model and conversion/analysis engine.

The graph representations (AND-inverter graph, majority graph, mixed
XOR/majority graph) are embedded as arena-style node lists with complemented
edge references, following the data model of the repository: a node is a
constant, a primary input, or an internal gate with an ordered fan-in list of
(node id, polarity) edge references; a network owns its node list and a list
of named primary outputs.  Evaluation processes nodes in list order (the
topological order contract), so a fan-in reference to a node at a position at
or after the referencing node reads the default value `false`.
-/

set_option maxRecDepth 4000

/-- An edge reference: target node id plus a complementation (polarity) bit. -/
structure Edge where
  node : Nat
  inv : Bool
deriving DecidableEq

/-- Internal gate kinds appearing across the graph representations:
2-input AND (AND-inverter graphs), 2-input XOR and 3-input majority
(majority and mixed graphs). -/
inductive GateKind where
  | and2
  | xor2
  | maj3
deriving DecidableEq

/-- A node of a network: the constant node, a primary input (identified by a
variable index), or an internal gate with its ordered fan-in edges. -/
inductive NodeK where
  | const0
  | pi (idx : Nat)
  | gate (k : GateKind) (ins : List Edge)
deriving DecidableEq

/-- A network: node arena (ids are list positions) plus named primary
outputs, each an edge reference into the arena. -/
structure NetGraph where
  nodes : List NodeK
  outputs : List (Edge × String)
deriving DecidableEq

/-- Boolean semantics of a gate kind applied to its fan-in values.
A malformed fan-in list (wrong arity) yields `false`. -/
def gateSem : GateKind → List Bool → Bool
  | .and2, [a, b] => a && b
  | .xor2, [a, b] => Bool.xor a b
  | .maj3, [a, b, c] => (a && b) || ((b && c) || (a && c))
  | _, _ => false

/-- Value carried by an edge reference given the values of already-processed
nodes: the referenced node's value (default `false` if not yet processed)
complemented according to the polarity bit. -/
def edgeVal (vals : List Bool) (e : Edge) : Bool :=
  Bool.xor (vals.getD e.node false) e.inv

/-- Value of a single node given the values of the already-processed nodes. -/
def evalNode (env : Nat → Bool) (vals : List Bool) : NodeK → Bool
  | .const0 => false
  | .pi i => env i
  | .gate k ins => gateSem k (ins.map (edgeVal vals))

/-- Generic left-to-right accumulation over the node list: each node is mapped
using the results of all earlier nodes.  Instantiated with `evalNode` for
simulation and with `levelNode` for the depth computation. -/
def accMap (f : List α → NodeK → α) : List α → List NodeK → List α
  | acc, [] => acc
  | acc, n :: ns => accMap f (acc ++ [f acc n]) ns

/-- Values of all nodes of a network under a primary-input assignment. -/
def NetGraph.vals (g : NetGraph) (env : Nat → Bool) : List Bool :=
  accMap (evalNode env) [] g.nodes

/-- The Boolean functions realized at the primary outputs: the list of output
values, in output-list order, under a primary-input assignment. -/
def NetGraph.simulate (g : NetGraph) (env : Nat → Bool) : List Bool :=
  g.outputs.map (fun o => edgeVal (g.vals env) o.1)

/-- The primary-output names, in output-list order. -/
def NetGraph.outNames (g : NetGraph) : List String :=
  g.outputs.map (fun o => o.2)

/-! ### Utility lemmas about `accMap` and `List.getD` -/

theorem accMap_nil (f : List α → NodeK → α) (acc : List α) :
    accMap f acc [] = acc := rfl

theorem accMap_cons (f : List α → NodeK → α) (acc : List α) (n : NodeK)
    (ns : List NodeK) : accMap f acc (n :: ns) = accMap f (acc ++ [f acc n]) ns := rfl

theorem accMap_app (f : List α → NodeK → α) (ns ms : List NodeK) :
    ∀ acc, accMap f acc (ns ++ ms) = accMap f (accMap f acc ns) ms := by
  induction ns with
  | nil => intro acc; rfl
  | cons n ns ih => intro acc; simp only [List.cons_append, accMap_cons, ih]

theorem accMap_len (f : List α → NodeK → α) (ns : List NodeK) :
    ∀ acc, (accMap f acc ns).length = acc.length + ns.length := by
  induction ns with
  | nil => intro acc; simp [accMap_nil]
  | cons n ns ih =>
    intro acc
    simp [accMap_cons, ih]
    omega

theorem accMap_grows (f : List α → NodeK → α) (ns : List NodeK) :
    ∀ acc, ∃ t, accMap f acc ns = acc ++ t := by
  induction ns with
  | nil => intro acc; exact ⟨[], by simp [accMap_nil]⟩
  | cons n ns ih =>
    intro acc
    obtain ⟨t, ht⟩ := ih (acc ++ [f acc n])
    exact ⟨[f acc n] ++ t, by simp only [accMap_cons, ht, List.append_assoc]⟩

theorem getD_app_lt (l r : List α) (i : Nat) (d : α) (h : i < l.length) :
    (l ++ r).getD i d = l.getD i d := by
  unfold List.getD
  rw [List.get?_append h]

theorem getD_app_len (l r : List α) (d : α) :
    (l ++ r).getD l.length d = r.getD 0 d := by
  unfold List.getD
  rw [List.get?_append_right (Nat.le_refl _), Nat.sub_self]

theorem getD_of_ge (l : List α) (i : Nat) (d : α) (h : l.length ≤ i) :
    l.getD i d = d := by
  unfold List.getD
  rw [List.get?_eq_none.mpr h]
  rfl

/-- Values of already-processed nodes are stable under processing more nodes. -/
theorem accMap_getD_stable (f : List α → NodeK → α) (ns : List NodeK)
    (acc : List α) (i : Nat) (d : α) (h : i < acc.length) :
    (accMap f acc ns).getD i d = acc.getD i d := by
  obtain ⟨t, ht⟩ := accMap_grows f ns acc
  rw [ht, getD_app_lt _ _ _ _ h]

/-- The value recorded for node `i` is the node mapped over the results of the
nodes before it. -/
theorem accMap_getD (f : List α → NodeK → α) (d : α) :
    ∀ (ns : List NodeK) (acc : List α) (i : Nat) (n : NodeK),
      ns[i]? = some n →
      (accMap f acc ns).getD (acc.length + i) d = f (accMap f acc (ns.take i)) n := by
  intro ns
  induction ns with
  | nil => intro acc i n h; simp at h
  | cons m ns ih =>
    intro acc i n h
    cases i with
    | zero =>
      simp only [List.getElem?_cons_zero, Option.some_inj] at h
      subst h
      simp only [accMap_cons, List.take_zero, accMap_nil]
      rw [accMap_getD_stable f ns _ _ d (by simp), Nat.add_zero, getD_app_len]
      rfl
    | succ j =>
      simp only [List.getElem?_cons_succ] at h
      have := ih (acc ++ [f acc m]) j n h
      simp only [List.length_append, List.length_cons, List.length_nil] at this
      simp only [accMap_cons, List.take_succ_cons]
      rw [show acc.length + (j + 1) = acc.length + 1 + j by omega]
      exact this

/-- Reading node values below `i` only needs the first `i` nodes. -/
theorem accMap_take_getD (f : List α → NodeK → α) (ns : List NodeK)
    (i j : Nat) (d : α) (hj : j < i) :
    (accMap f [] (ns.take i)).getD j d = (accMap f [] ns).getD j d := by
  by_cases hlen : j < ns.length
  · have h1 : j < (ns.take i).length := by
      simp only [List.length_take]
      omega
    have h2 : j < (accMap f [] (ns.take i)).length := by
      rw [accMap_len]; simpa using h1
    conv_rhs => rw [← List.take_append_drop i ns]
    rw [accMap_app]
    rw [accMap_getD_stable f _ _ _ _ h2]
  · have h1 : (accMap f [] ns).length ≤ j := by
      rw [accMap_len]; simpa using Nat.le_of_not_lt hlen
    have h2 : (accMap f [] (ns.take i)).length ≤ j := by
      rw [accMap_len]
      simp only [List.length_take, List.length_nil, Nat.zero_add]
      have := Nat.le_of_not_lt hlen
      exact le_trans (Nat.min_le_right i ns.length) this
    rw [getD_of_ge _ _ _ h1, getD_of_ge _ _ _ h2]

/-! ### Network construction and the generic structural converter

Converters between the graph representations process the source nodes in
topological (list) order, mapping each source node to an edge of the target
network under construction; internal gates are expanded by a
representation-pair-specific gate expansion. This models the structural
converters (`aig_to_mig`, `mig_to_aig`, `xmg_from_aig`,
`xmg_create_aig_topological`, `xmg_from_mig`, `xmg_create_mig_topological`)
invoked by the `convert<...>` specializations in src/cli/stores.cpp; the
expansion bodies are modelled from the spec (§4.2), as the converter sources
are not part of the provided files. -/

/-- Construction state: the node arena of the network being built. -/
structure BState where
  nodes : List NodeK
deriving DecidableEq

/-- Append a node, returning its identity edge. -/
def addNode (s : BState) (n : NodeK) : BState × Edge :=
  (⟨s.nodes ++ [n]⟩, ⟨s.nodes.length, false⟩)

/-- Complement an edge (free polarity toggle). -/
def Edge.negate (e : Edge) : Edge := ⟨e.node, !e.inv⟩

/-- Edge to the constant node of a network built starting from the constant
node at position 0; realizes the constant-false function. -/
def cEdge : Edge := ⟨0, false⟩

/-- Translate a source fan-in edge through the source-node-to-target-edge map,
composing polarities. -/
def mapEdge (emap : List Edge) (e : Edge) : Edge :=
  ⟨(emap.getD e.node cEdge).node, Bool.xor (emap.getD e.node cEdge).inv e.inv⟩

/-- A gate expansion: emits target nodes realizing one source gate over
already-translated fan-in edges, returning the edge realizing the gate. -/
def Expand : Type := GateKind → List Edge → BState → BState × Edge

/-- One converter step: constants and primary inputs are copied, internal
gates are expanded. -/
def convStep (ex : Expand) (emap : List Edge) (s : BState) : NodeK → BState × Edge
  | .const0 => addNode s .const0
  | .pi i => addNode s (.pi i)
  | .gate k ins => ex k (ins.map (mapEdge emap)) s

/-- Convert all source nodes in topological order, accumulating the
source-node-to-target-edge map. -/
def convNodes (ex : Expand) : List NodeK → BState → List Edge → BState × List Edge
  | [], s, emap => (s, emap)
  | n :: ns, s, emap =>
    convNodes ex ns (convStep ex emap s n).1 (emap ++ [(convStep ex emap s n).2])

/-- Full network conversion: convert the nodes, then translate every primary
output edge, keeping output order and names. -/
def convertNet (ex : Expand) (g : NetGraph) : NetGraph :=
  ⟨(convNodes ex g.nodes ⟨[NodeK.const0]⟩ []).1.nodes,
   g.outputs.map (fun o => (mapEdge (convNodes ex g.nodes ⟨[NodeK.const0]⟩ []).2 o.1, o.2))⟩

/-- A node is admissible in a representation whose internal gate kinds are
`ks`. -/
def legalNode (ks : List GateKind) : NodeK → Bool
  | .gate k _ => decide (k ∈ ks)
  | _ => true

/-- A network belongs to the representation with internal gate kinds `ks`. -/
def NetGraph.legal (g : NetGraph) (ks : List GateKind) : Bool :=
  g.nodes.all (legalNode ks)

/-- Gate kinds of the AND-inverter representation. -/
def aigKinds : List GateKind := [.and2]

/-- Gate kinds of the majority representation. -/
def migKinds : List GateKind := [.maj3]

/-- Gate kinds of the mixed XOR/majority representation. -/
def xmgKinds : List GateKind := [.xor2, .maj3]

/-- The construction state starts with the constant node at position 0. -/
def headC (s : BState) : Prop := s.nodes.head? = some NodeK.const0

/-- Node values of a network under construction. -/
def bvals (env : Nat → Bool) (s : BState) : List Bool :=
  accMap (evalNode env) [] s.nodes

theorem bvals_len (env : Nat → Bool) (s : BState) :
    (bvals env s).length = s.nodes.length := by
  unfold bvals
  rw [accMap_len]
  simp

theorem headC_app (s : BState) (l : List NodeK) (h : headC s) :
    headC ⟨s.nodes ++ l⟩ := by
  unfold headC at h ⊢
  cases hn : s.nodes with
  | nil => rw [hn] at h; cases h
  | cons a t => rw [hn] at h; simpa using h

theorem headC_ne_nil (s : BState) (h : headC s) : 0 < s.nodes.length := by
  unfold headC at h
  cases hn : s.nodes with
  | nil => rw [hn] at h; cases h
  | cons a t => simp

theorem cEdge_val (env : Nat → Bool) (s : BState) (h : headC s) :
    edgeVal (bvals env s) cEdge = false := by
  unfold headC at h
  cases hn : s.nodes with
  | nil => rw [hn] at h; cases h
  | cons a t =>
    rw [hn] at h
    simp only [List.head?_cons, Option.some_inj] at h
    subst h
    show Bool.xor ((bvals env s).getD 0 false) false = false
    rw [Bool.xor_false]
    unfold bvals
    rw [hn]
    rw [show (NodeK.const0 :: t) = [NodeK.const0] ++ t by rfl, accMap_app]
    rw [accMap_getD_stable _ _ _ _ _ (by simp [accMap_cons, accMap_nil, evalNode])]
    simp [accMap_cons, accMap_nil, evalNode]

/-- Values of nodes already present are unchanged by appending more nodes. -/
theorem edgeVal_ext (env : Nat → Bool) (nodes new : List NodeK) (e : Edge)
    (h : e.node < nodes.length) :
    edgeVal (accMap (evalNode env) [] (nodes ++ new)) e
      = edgeVal (accMap (evalNode env) [] nodes) e := by
  unfold edgeVal
  rw [accMap_app, accMap_getD_stable]
  rw [accMap_len]
  simpa using h

theorem addNode_val (env : Nat → Bool) (s : BState) (n : NodeK) :
    bvals env (addNode s n).1 = bvals env s ++ [evalNode env (bvals env s) n] := by
  show accMap (evalNode env) [] (s.nodes ++ [n]) = _
  rw [accMap_app]
  rfl

theorem edgeVal_fresh (V : List Bool) (w b : Bool) :
    edgeVal (V ++ [w]) ⟨V.length, b⟩ = Bool.xor w b := by
  unfold edgeVal
  rw [getD_app_len]
  rfl

/-- Translated edges evaluate in the target like the original edges evaluate
in the source, given the edge-map invariant. -/
theorem mapEdge_val (valsT valsS : List Bool) (emap : List Edge)
    (hinv : ∀ i, edgeVal valsT (emap.getD i cEdge) = valsS.getD i false)
    (e : Edge) :
    edgeVal valsT (mapEdge emap e) = edgeVal valsS e := by
  unfold mapEdge
  show Bool.xor (valsT.getD (emap.getD e.node cEdge).node false) _ = _
  rw [← Bool.xor_assoc]
  have h1 : Bool.xor (valsT.getD (emap.getD e.node cEdge).node false)
      (emap.getD e.node cEdge).inv = edgeVal valsT (emap.getD e.node cEdge) := rfl
  rw [h1, hinv e.node]
  rfl

/-- A translated edge always points below the target arena frontier. -/
theorem mapEdge_range (emap : List Edge) (s : BState) (hne : 0 < s.nodes.length)
    (hr : ∀ e ∈ emap, e.node < s.nodes.length) (e : Edge) :
    (mapEdge emap e).node < s.nodes.length := by
  show (emap.getD e.node cEdge).node < s.nodes.length
  by_cases h : e.node < emap.length
  · apply hr
    unfold List.getD
    rw [List.get?_eq_get h]
    exact List.get_mem _ _ _
  · rw [getD_of_ge _ _ _ (Nat.le_of_not_lt h)]
    exact hne

/-- Correctness contract of a gate expansion for a converter from the
representation with kinds `src` into the representation with kinds `tgt`:
it only appends target-legal nodes, returns an in-range edge, and the edge
realizes the source gate semantics of the translated fan-ins. -/
def ExpandOK (ex : Expand) (src tgt : List GateKind) : Prop :=
  ∀ k es s, k ∈ src → headC s → (∀ e ∈ es, e.node < s.nodes.length) →
    (∃ new, (ex k es s).1.nodes = s.nodes ++ new ∧
       ∀ n ∈ new, legalNode tgt n = true) ∧
    (ex k es s).2.node < (ex k es s).1.nodes.length ∧
    ∀ env, edgeVal (bvals env (ex k es s).1) (ex k es s).2
      = gateSem k (es.map (edgeVal (bvals env s)))

theorem getD_mem (l : List α) (i : Nat) (d : α) (h : i < l.length) :
    l.getD i d ∈ l := by
  unfold List.getD
  rw [List.get?_eq_get h]
  exact List.get_mem _ _ _

/-- One converter step maps any source node to an edge realizing the node's
value over the source prefix processed so far. -/
theorem convStep_ok (ex : Expand) (src tgt : List GateKind)
    (hex : ExpandOK ex src tgt) (ps : List NodeK) (s : BState)
    (emap : List Edge) (n : NodeK)
    (hleg : legalNode src n = true) (hhc : headC s)
    (hr : ∀ e ∈ emap, e.node < s.nodes.length)
    (hinv : ∀ env i, edgeVal (bvals env s) (emap.getD i cEdge)
        = (accMap (evalNode env) [] ps).getD i false) :
    (∃ new, (convStep ex emap s n).1.nodes = s.nodes ++ new ∧
        ∀ m ∈ new, legalNode tgt m = true) ∧
    (convStep ex emap s n).2.node < (convStep ex emap s n).1.nodes.length ∧
    ∀ env, edgeVal (bvals env (convStep ex emap s n).1) (convStep ex emap s n).2
        = evalNode env (accMap (evalNode env) [] ps) n := by
  cases n with
  | const0 =>
    refine ⟨⟨[NodeK.const0], rfl, ?_⟩, ?_, ?_⟩
    · intro m hm
      simp only [List.mem_singleton] at hm
      subst hm
      rfl
    · show s.nodes.length < (s.nodes ++ [NodeK.const0]).length
      simp
    · intro env
      show edgeVal (bvals env (addNode s NodeK.const0).1) ⟨s.nodes.length, false⟩ = false
      rw [addNode_val, ← bvals_len env s, edgeVal_fresh]
      rfl
  | pi i =>
    refine ⟨⟨[NodeK.pi i], rfl, ?_⟩, ?_, ?_⟩
    · intro m hm
      simp only [List.mem_singleton] at hm
      subst hm
      rfl
    · show s.nodes.length < (s.nodes ++ [NodeK.pi i]).length
      simp
    · intro env
      show edgeVal (bvals env (addNode s (NodeK.pi i)).1) ⟨s.nodes.length, false⟩ = env i
      rw [addNode_val, ← bvals_len env s, edgeVal_fresh]
      simp [evalNode]
  | gate k ins =>
    have hk : k ∈ src := by
      have := hleg
      unfold legalNode at this
      exact of_decide_eq_true this
    have hes : ∀ e ∈ ins.map (mapEdge emap), e.node < s.nodes.length := by
      intro e he
      obtain ⟨e0, _, rfl⟩ := List.mem_map.mp he
      exact mapEdge_range emap s (headC_ne_nil s hhc) hr e0
    obtain ⟨hnew, hrange, hval⟩ := hex k (ins.map (mapEdge emap)) s hk hhc hes
    refine ⟨hnew, hrange, ?_⟩
    intro env
    show edgeVal (bvals env (ex k (ins.map (mapEdge emap)) s).1)
        (ex k (ins.map (mapEdge emap)) s).2 = _
    rw [hval env]
    show gateSem k ((ins.map (mapEdge emap)).map (edgeVal (bvals env s)))
        = gateSem k (ins.map (edgeVal (accMap (evalNode env) [] ps)))
    congr 1
    rw [List.map_map]
    have hpt : ∀ l : List Edge,
        l.map (edgeVal (bvals env s) ∘ mapEdge emap)
          = l.map (edgeVal (accMap (evalNode env) [] ps)) := by
      intro l
      induction l with
      | nil => rfl
      | cons a t iht =>
        simp only [List.map_cons, iht, Function.comp]
        rw [mapEdge_val _ _ emap (hinv env) a]
    exact hpt ins

/-- Invariant of the converter loop: all target-state properties are
maintained while the edge map realizes, node for node, the values of the
source prefix already processed. -/
theorem convNodes_inv (ex : Expand) (src tgt : List GateKind)
    (hex : ExpandOK ex src tgt) :
    ∀ (ns ps : List NodeK) (s : BState) (emap : List Edge),
      (∀ n ∈ ns, legalNode src n = true) →
      headC s →
      (∀ n ∈ s.nodes, legalNode tgt n = true) →
      emap.length = ps.length →
      (∀ e ∈ emap, e.node < s.nodes.length) →
      (∀ env i, edgeVal (bvals env s) (emap.getD i cEdge)
          = (accMap (evalNode env) [] ps).getD i false) →
      headC (convNodes ex ns s emap).1 ∧
      (∀ n ∈ (convNodes ex ns s emap).1.nodes, legalNode tgt n = true) ∧
      (∀ env i, edgeVal (bvals env (convNodes ex ns s emap).1)
          ((convNodes ex ns s emap).2.getD i cEdge)
          = (accMap (evalNode env) [] (ps ++ ns)).getD i false) := by
  intro ns
  induction ns with
  | nil =>
    intro ps s emap hleg hhc htleg hlen hr hinv
    refine ⟨hhc, htleg, ?_⟩
    intro env i
    simpa [convNodes] using hinv env i
  | cons n ns ih =>
    intro ps s emap hleg hhc htleg hlen hr hinv
    obtain ⟨⟨new, hnew, hnewleg⟩, hrange, hval⟩ :=
      convStep_ok ex src tgt hex ps s emap n (hleg n (by simp)) hhc hr hinv
    have hhc' : headC (convStep ex emap s n).1 := by
      unfold headC
      rw [hnew]
      exact headC_app s new hhc
    have hlelen : s.nodes.length ≤ (convStep ex emap s n).1.nodes.length := by
      rw [hnew]
      simp
    have htleg' : ∀ m ∈ (convStep ex emap s n).1.nodes, legalNode tgt m = true := by
      intro m hm
      rw [hnew] at hm
      rcases List.mem_append.mp hm with h | h
      · exact htleg m h
      · exact hnewleg m h
    have hlen' : (emap ++ [(convStep ex emap s n).2]).length = (ps ++ [n]).length := by
      simp [hlen]
    have hr' : ∀ e ∈ emap ++ [(convStep ex emap s n).2],
        e.node < (convStep ex emap s n).1.nodes.length := by
      intro e he
      rcases List.mem_append.mp he with h | h
      · exact lt_of_lt_of_le (hr e h) hlelen
      · simp only [List.mem_singleton] at h
        subst h
        exact hrange
    have hinv' : ∀ env i,
        edgeVal (bvals env (convStep ex emap s n).1)
          ((emap ++ [(convStep ex emap s n).2]).getD i cEdge)
          = (accMap (evalNode env) [] (ps ++ [n])).getD i false := by
      intro env i
      rcases Nat.lt_trichotomy i emap.length with hi | hi | hi
      · rw [getD_app_lt _ _ _ _ hi]
        have hmem := getD_mem emap i cEdge hi
        have hnd : (emap.getD i cEdge).node < s.nodes.length := hr _ hmem
        have hstab : edgeVal (bvals env (convStep ex emap s n).1) (emap.getD i cEdge)
            = edgeVal (bvals env s) (emap.getD i cEdge) := by
          show edgeVal (accMap (evalNode env) [] (convStep ex emap s n).1.nodes) _ = _
          rw [hnew]
          exact edgeVal_ext env s.nodes new _ hnd
        rw [hstab, hinv env i]
        have hsnoc : accMap (evalNode env) [] (ps ++ [n])
            = accMap (evalNode env) [] ps
              ++ [evalNode env (accMap (evalNode env) [] ps) n] := by
          rw [accMap_app]
          rfl
        have hilt : i < (accMap (evalNode env) [] ps).length := by
          rw [accMap_len]
          simp only [List.length_nil, Nat.zero_add]
          omega
        rw [hsnoc, getD_app_lt _ _ _ _ hilt]
      · subst hi
        rw [getD_app_len]
        show edgeVal _ ([(convStep ex emap s n).2].getD 0 cEdge) = _
        rw [show ([(convStep ex emap s n).2].getD 0 cEdge) = (convStep ex emap s n).2 from rfl]
        rw [hval env]
        have hsnoc : accMap (evalNode env) [] (ps ++ [n])
            = accMap (evalNode env) [] ps
              ++ [evalNode env (accMap (evalNode env) [] ps) n] := by
          rw [accMap_app]
          rfl
        have hlps : emap.length = (accMap (evalNode env) [] ps).length := by
          rw [accMap_len]
          simp [hlen]
        rw [hsnoc, hlps, getD_app_len]
        rfl
      · have h1 : (emap ++ [(convStep ex emap s n).2]).length ≤ i := by
          simp only [List.length_append, List.length_cons, List.length_nil]
          omega
        have h2 : (accMap (evalNode env) [] (ps ++ [n])).length ≤ i := by
          rw [accMap_len]
          simp only [List.length_nil, List.length_append, List.length_cons]
          omega
        rw [getD_of_ge _ _ _ h1, getD_of_ge _ _ _ h2]
        exact cEdge_val env _ hhc'
    have := ih (ps ++ [n]) (convStep ex emap s n).1
      (emap ++ [(convStep ex emap s n).2])
      (fun m hm => hleg m (by simp [hm])) hhc' htleg' hlen' hr' hinv'
    simpa [convNodes, List.append_assoc] using this

/-- Generic converter soundness: given a sound gate expansion, conversion
produces a network of the target representation with the same output names,
in the same order, realizing the same Boolean function at every output. -/
theorem convertNet_sound (ex : Expand) (src tgt : List GateKind)
    (hex : ExpandOK ex src tgt) (g : NetGraph) (hg : g.legal src = true) :
    (convertNet ex g).legal tgt = true ∧
    (convertNet ex g).outNames = g.outNames ∧
    ∀ env, (convertNet ex g).simulate env = g.simulate env := by
  have hstart : headC ⟨[NodeK.const0]⟩ := rfl
  have h0 := convNodes_inv ex src tgt hex g.nodes [] ⟨[NodeK.const0]⟩ []
    (by
      intro n hn
      exact List.all_eq_true.mp hg n hn)
    hstart
    (by
      intro n hn
      simp only [List.mem_singleton] at hn
      subst hn
      rfl)
    rfl
    (by intro e he; simp at he)
    (by
      intro env i
      rw [getD_of_ge _ _ _ (by simp)]
      rw [cEdge_val env _ hstart]
      rw [getD_of_ge]
      simp [accMap_nil])
  obtain ⟨hhcF, htlegF, hinvF⟩ := h0
  refine ⟨?_, ?_, ?_⟩
  · apply List.all_eq_true.mpr
    intro n hn
    exact htlegF n hn
  · show (g.outputs.map _).map _ = g.outputs.map _
    rw [List.map_map]
    rfl
  · intro env
    show (g.outputs.map _).map _ = g.outputs.map _
    rw [List.map_map]
    apply List.map_congr_left
    intro o ho
    show edgeVal _ (mapEdge (convNodes ex g.nodes ⟨[NodeK.const0]⟩ []).2 o.1) = _
    apply mapEdge_val
    intro i
    have := hinvF env i
    simpa [accMap_nil] using this

/-! ### Gate expansions for the representation converters (spec §4.2) -/

theorem getD_app_add (l r : List α) (j : Nat) (d : α) :
    (l ++ r).getD (l.length + j) d = r.getD j d := by
  unfold List.getD
  rw [List.get?_append_right (Nat.le_add_right _ _)]
  rw [Nat.add_sub_cancel_left]

theorem edgeVal_app (V t : List Bool) (e : Edge) (h : e.node < V.length) :
    edgeVal (V ++ t) e = edgeVal V e := by
  unfold edgeVal
  rw [getD_app_lt _ _ _ _ h]

/-- An edge into the constant node realizes the polarity bit. -/
theorem zeroEdge_val (env : Nat → Bool) (s : BState) (b : Bool) (h : headC s) :
    edgeVal (bvals env s) ⟨0, b⟩ = b := by
  unfold headC at h
  cases hn : s.nodes with
  | nil => rw [hn] at h; cases h
  | cons a t =>
    rw [hn] at h
    simp only [List.head?_cons, Option.some_inj] at h
    subst h
    show Bool.xor ((bvals env s).getD 0 false) b = b
    unfold bvals
    rw [hn]
    rw [show (NodeK.const0 :: t) = [NodeK.const0] ++ t by rfl, accMap_app]
    rw [accMap_getD_stable _ _ _ _ _ (by simp [accMap_cons, accMap_nil, evalNode])]
    simp [accMap_cons, accMap_nil, evalNode]

/-- Shared fallback of every gate expansion on a malformed fan-in list:
leave the state unchanged and return the constant-false edge. -/
theorem expand_fallback (tgt : List GateKind) (s : BState) (hhc : headC s)
    (k : GateKind) (es : List Edge)
    (hsem : ∀ env, gateSem k (es.map (edgeVal (bvals env s))) = false) :
    (∃ new, (BState.nodes (s, cEdge).1) = s.nodes ++ new ∧
        ∀ m ∈ new, legalNode tgt m = true) ∧
    (Edge.node ((s, cEdge) : BState × Edge).2) < (BState.nodes (s, cEdge).1).length ∧
    ∀ env, edgeVal (bvals env (s, cEdge).1) ((s, cEdge) : BState × Edge).2
        = gateSem k (es.map (edgeVal (bvals env s))) := by
  refine ⟨⟨[], by simp, by intro m hm; cases hm⟩, headC_ne_nil s hhc, ?_⟩
  intro env
  rw [hsem env]
  exact cEdge_val env s hhc

/-- Expansion of a 2-input AND gate as a majority gate with one constant
fan-in, `MAJ(a, b, 0)`; used when converting AND-inverter graphs to the
majority and mixed representations. -/
def exAndAsMaj : Expand
  | .and2, [a, b], s => addNode s (.gate .maj3 [a, b, cEdge])
  | _, _, s => (s, cEdge)

/-- Direct copy of a majority gate; used when converting majority graphs to
the mixed representation. -/
def exMajAsMaj : Expand
  | .maj3, [a, b, c], s => addNode s (.gate .maj3 [a, b, c])
  | _, _, s => (s, cEdge)

theorem exAndAsMaj_ok (tgt : List GateKind) (hm : GateKind.maj3 ∈ tgt) :
    ExpandOK exAndAsMaj aigKinds tgt := by
  intro k es s hk hhc hes
  have hk' : k = .and2 := by simpa [aigKinds] using hk
  subst hk'
  rcases es with _ | ⟨a, _ | ⟨b, _ | ⟨c, es⟩⟩⟩
  · exact expand_fallback tgt s hhc _ _ (fun env => rfl)
  · exact expand_fallback tgt s hhc _ _ (fun env => rfl)
  any_goals exact expand_fallback tgt s hhc _ _ (fun env => rfl)
  refine ⟨⟨[NodeK.gate .maj3 [a, b, cEdge]], rfl, ?_⟩, ?_, ?_⟩
  · intro m hmm
    simp only [List.mem_singleton] at hmm
    subst hmm
    simp [legalNode, hm]
  · show s.nodes.length < (s.nodes ++ [NodeK.gate .maj3 [a, b, cEdge]]).length
    simp
  · intro env
    show edgeVal (bvals env (addNode s (NodeK.gate .maj3 [a, b, cEdge])).1)
        ⟨s.nodes.length, false⟩ = _
    rw [addNode_val, ← bvals_len env s, edgeVal_fresh, Bool.xor_false]
    show gateSem .maj3 [edgeVal (bvals env s) a, edgeVal (bvals env s) b,
        edgeVal (bvals env s) cEdge] = _
    rw [cEdge_val env s hhc]
    simp only [List.map_cons, List.map_nil]
    generalize edgeVal (bvals env s) a = va
    generalize edgeVal (bvals env s) b = vb
    cases va <;> cases vb <;> rfl

theorem exMajAsMaj_ok (tgt : List GateKind) (hm : GateKind.maj3 ∈ tgt) :
    ExpandOK exMajAsMaj migKinds tgt := by
  intro k es s hk hhc hes
  have hk' : k = .maj3 := by simpa [migKinds] using hk
  subst hk'
  rcases es with _ | ⟨a, _ | ⟨b, _ | ⟨c, _ | ⟨d, es⟩⟩⟩⟩
  any_goals exact expand_fallback tgt s hhc _ _ (fun env => rfl)
  refine ⟨⟨[NodeK.gate .maj3 [a, b, c]], rfl, ?_⟩, ?_, ?_⟩
  · intro m hmm
    simp only [List.mem_singleton] at hmm
    subst hmm
    simp [legalNode, hm]
  · show s.nodes.length < (s.nodes ++ [NodeK.gate .maj3 [a, b, c]]).length
    simp
  · intro env
    show edgeVal (bvals env (addNode s (NodeK.gate .maj3 [a, b, c])).1)
        ⟨s.nodes.length, false⟩ = _
    rw [addNode_val, ← bvals_len env s, edgeVal_fresh, Bool.xor_false]
    rfl

theorem edgeVal_negate (V : List Bool) (e : Edge) :
    edgeVal V e.negate = !(edgeVal V e) := by
  show Bool.xor (V.getD e.node false) (!e.inv) = !(Bool.xor (V.getD e.node false) e.inv)
  cases V.getD e.node false <;> cases e.inv <;> rfl

theorem edgeVal_app_len (V rest : List Bool) (b : Bool) :
    edgeVal (V ++ rest) ⟨V.length, b⟩ = Bool.xor (rest.getD 0 false) b := by
  unfold edgeVal
  rw [getD_app_len]

theorem edgeVal_app_add (V rest : List Bool) (j : Nat) (b : Bool) :
    edgeVal (V ++ rest) ⟨V.length + j, b⟩ = Bool.xor (rest.getD j false) b := by
  unfold edgeVal
  rw [getD_app_add]

/-- De Morgan decomposition of a 3-input majority gate into AND gates with
complemented edges (the three pairwise conjunctions joined by a disjunction),
appended at position `L` of the target arena. -/
def majToAndNodes (a b c : Edge) (L : Nat) : List NodeK :=
  [ .gate .and2 [a, b],
    .gate .and2 [b, c],
    .gate .and2 [a, c],
    .gate .and2 [⟨L, true⟩, ⟨L + 1, true⟩],
    .gate .and2 [⟨L + 3, false⟩, ⟨L + 2, true⟩] ]

/-- Decomposition of a 2-input XOR gate into the 3-AND pattern with
complemented edges, appended at position `L` of the target arena. -/
def xorToAndNodes (a b : Edge) (L : Nat) : List NodeK :=
  [ .gate .and2 [a, b.negate],
    .gate .and2 [a.negate, b],
    .gate .and2 [⟨L, true⟩, ⟨L + 1, true⟩] ]

/-- Decomposition of a 2-input XOR gate into majority gates with constant
fan-ins: `(a OR b) AND NOT (a AND b)`, appended at position `L`. -/
def xorToMajNodes (a b : Edge) (L : Nat) : List NodeK :=
  [ .gate .maj3 [a, b, ⟨0, true⟩],
    .gate .maj3 [a, b, ⟨0, false⟩],
    .gate .maj3 [⟨L, false⟩, ⟨L + 1, true⟩, ⟨0, false⟩] ]

theorem majToAndNodes_val (env : Nat → Bool) (s : BState) (a b c : Edge)
    (ha : a.node < s.nodes.length) (hb : b.node < s.nodes.length)
    (hc : c.node < s.nodes.length) :
    edgeVal (bvals env ⟨s.nodes ++ majToAndNodes a b c s.nodes.length⟩)
        ⟨s.nodes.length + 4, true⟩
      = gateSem .maj3 [edgeVal (bvals env s) a, edgeVal (bvals env s) b,
          edgeVal (bvals env s) c] := by
  have hV : (accMap (evalNode env) [] s.nodes).length = s.nodes.length := by
    rw [accMap_len]; simp
  show edgeVal (accMap (evalNode env) [] (s.nodes ++ majToAndNodes a b c s.nodes.length))
      ⟨s.nodes.length + 4, true⟩
    = gateSem .maj3 [edgeVal (accMap (evalNode env) [] s.nodes) a,
        edgeVal (accMap (evalNode env) [] s.nodes) b,
        edgeVal (accMap (evalNode env) [] s.nodes) c]
  rw [← hV] at ha hb hc
  rw [← hV]
  rw [accMap_app]
  simp only [majToAndNodes, accMap_cons, accMap_nil, evalNode, List.map_cons,
    List.map_nil, gateSem, List.append_assoc, List.singleton_append,
    edgeVal_app, ha, hb, hc, edgeVal_app_len, edgeVal_app_add]
  generalize edgeVal (accMap (evalNode env) [] s.nodes) a = va
  generalize edgeVal (accMap (evalNode env) [] s.nodes) b = vb
  generalize edgeVal (accMap (evalNode env) [] s.nodes) c = vc
  cases va <;> cases vb <;> cases vc <;> decide

theorem xorToAndNodes_val (env : Nat → Bool) (s : BState) (a b : Edge)
    (ha : a.node < s.nodes.length) (hb : b.node < s.nodes.length) :
    edgeVal (bvals env ⟨s.nodes ++ xorToAndNodes a b s.nodes.length⟩)
        ⟨s.nodes.length + 2, true⟩
      = gateSem .xor2 [edgeVal (bvals env s) a, edgeVal (bvals env s) b] := by
  have hV : (accMap (evalNode env) [] s.nodes).length = s.nodes.length := by
    rw [accMap_len]; simp
  show edgeVal (accMap (evalNode env) [] (s.nodes ++ xorToAndNodes a b s.nodes.length))
      ⟨s.nodes.length + 2, true⟩
    = gateSem .xor2 [edgeVal (accMap (evalNode env) [] s.nodes) a,
        edgeVal (accMap (evalNode env) [] s.nodes) b]
  rw [← hV] at ha hb
  rw [← hV]
  rw [accMap_app]
  simp only [xorToAndNodes, accMap_cons, accMap_nil, evalNode, List.map_cons,
    List.map_nil, gateSem, List.append_assoc, List.singleton_append,
    edgeVal_negate, edgeVal_app, ha, hb, edgeVal_app_len, edgeVal_app_add]
  generalize edgeVal (accMap (evalNode env) [] s.nodes) a = va
  generalize edgeVal (accMap (evalNode env) [] s.nodes) b = vb
  cases va <;> cases vb <;> decide

theorem xorToMajNodes_val (env : Nat → Bool) (s : BState) (a b : Edge)
    (hhc : headC s)
    (ha : a.node < s.nodes.length) (hb : b.node < s.nodes.length) :
    edgeVal (bvals env ⟨s.nodes ++ xorToMajNodes a b s.nodes.length⟩)
        ⟨s.nodes.length + 2, false⟩
      = gateSem .xor2 [edgeVal (bvals env s) a, edgeVal (bvals env s) b] := by
  have hV : (accMap (evalNode env) [] s.nodes).length = s.nodes.length := by
    rw [accMap_len]; simp
  have h0 : (0 : Nat) < (accMap (evalNode env) [] s.nodes).length := by
    rw [hV]; exact headC_ne_nil s hhc
  have hz0 : edgeVal (accMap (evalNode env) [] s.nodes) ⟨0, false⟩ = false :=
    zeroEdge_val env s false hhc
  have hz1 : edgeVal (accMap (evalNode env) [] s.nodes) ⟨0, true⟩ = true :=
    zeroEdge_val env s true hhc
  show edgeVal (accMap (evalNode env) [] (s.nodes ++ xorToMajNodes a b s.nodes.length))
      ⟨s.nodes.length + 2, false⟩
    = gateSem .xor2 [edgeVal (accMap (evalNode env) [] s.nodes) a,
        edgeVal (accMap (evalNode env) [] s.nodes) b]
  rw [← hV] at ha hb
  rw [← hV]
  rw [accMap_app]
  simp only [xorToMajNodes, accMap_cons, accMap_nil, evalNode, List.map_cons,
    List.map_nil, gateSem, List.append_assoc, List.singleton_append,
    edgeVal_app, ha, hb, h0, hz0, hz1, edgeVal_app_len, edgeVal_app_add]
  generalize edgeVal (accMap (evalNode env) [] s.nodes) a = va
  generalize edgeVal (accMap (evalNode env) [] s.nodes) b = vb
  cases va <;> cases vb <;> decide

/-- Expansion of a 3-input majority gate into the fixed AND/OR (De Morgan)
decomposition; used when converting majority and mixed graphs to the
AND-inverter representation. -/
def exMigToAig : Expand
  | .maj3, [a, b, c], s =>
    (⟨s.nodes ++ majToAndNodes a b c s.nodes.length⟩, ⟨s.nodes.length + 4, true⟩)
  | _, _, s => (s, cEdge)

/-- Expansions used when converting mixed graphs to the AND-inverter
representation: XOR via the 3-AND pattern, majority via De Morgan. -/
def exXmgToAig : Expand
  | .maj3, [a, b, c], s =>
    (⟨s.nodes ++ majToAndNodes a b c s.nodes.length⟩, ⟨s.nodes.length + 4, true⟩)
  | .xor2, [a, b], s =>
    (⟨s.nodes ++ xorToAndNodes a b s.nodes.length⟩, ⟨s.nodes.length + 2, true⟩)
  | _, _, s => (s, cEdge)

/-- Expansions used when converting mixed graphs to the majority
representation: majority copied, XOR decomposed into majority gates with
constant fan-ins. -/
def exXmgToMig : Expand
  | .maj3, [a, b, c], s => addNode s (.gate .maj3 [a, b, c])
  | .xor2, [a, b], s =>
    (⟨s.nodes ++ xorToMajNodes a b s.nodes.length⟩, ⟨s.nodes.length + 2, false⟩)
  | _, _, s => (s, cEdge)

theorem exMigToAig_ok : ExpandOK exMigToAig migKinds aigKinds := by
  intro k es s hk hhc hes
  have hk' : k = .maj3 := by simpa [migKinds] using hk
  subst hk'
  rcases es with _ | ⟨a, _ | ⟨b, _ | ⟨c, _ | ⟨d, es⟩⟩⟩⟩
  any_goals exact expand_fallback _ s hhc _ _ (fun env => rfl)
  have ha : a.node < s.nodes.length := hes a (by simp)
  have hb : b.node < s.nodes.length := hes b (by simp)
  have hc : c.node < s.nodes.length := hes c (by simp)
  refine ⟨⟨majToAndNodes a b c s.nodes.length, rfl, ?_⟩, ?_, ?_⟩
  · intro m hm
    simp only [majToAndNodes, List.mem_cons, List.not_mem_nil, or_false] at hm
    rcases hm with rfl | rfl | rfl | rfl | rfl <;> rfl
  · show s.nodes.length + 4 < (s.nodes ++ majToAndNodes a b c s.nodes.length).length
    simp [majToAndNodes]
  · intro env
    exact majToAndNodes_val env s a b c ha hb hc

theorem exXmgToAig_ok : ExpandOK exXmgToAig xmgKinds aigKinds := by
  intro k es s hk hhc hes
  have hk' : k = .xor2 ∨ k = .maj3 := by simpa [xmgKinds] using hk
  rcases hk' with rfl | rfl
  · rcases es with _ | ⟨a, _ | ⟨b, _ | ⟨c, es⟩⟩⟩
    any_goals exact expand_fallback _ s hhc _ _ (fun env => rfl)
    have ha : a.node < s.nodes.length := hes a (by simp)
    have hb : b.node < s.nodes.length := hes b (by simp)
    refine ⟨⟨xorToAndNodes a b s.nodes.length, rfl, ?_⟩, ?_, ?_⟩
    · intro m hm
      simp only [xorToAndNodes, List.mem_cons, List.not_mem_nil, or_false] at hm
      rcases hm with rfl | rfl | rfl <;> rfl
    · show s.nodes.length + 2 < (s.nodes ++ xorToAndNodes a b s.nodes.length).length
      simp [xorToAndNodes]
    · intro env
      exact xorToAndNodes_val env s a b ha hb
  · rcases es with _ | ⟨a, _ | ⟨b, _ | ⟨c, _ | ⟨d, es⟩⟩⟩⟩
    any_goals exact expand_fallback _ s hhc _ _ (fun env => rfl)
    have ha : a.node < s.nodes.length := hes a (by simp)
    have hb : b.node < s.nodes.length := hes b (by simp)
    have hc : c.node < s.nodes.length := hes c (by simp)
    refine ⟨⟨majToAndNodes a b c s.nodes.length, rfl, ?_⟩, ?_, ?_⟩
    · intro m hm
      simp only [majToAndNodes, List.mem_cons, List.not_mem_nil, or_false] at hm
      rcases hm with rfl | rfl | rfl | rfl | rfl <;> rfl
    · show s.nodes.length + 4 < (s.nodes ++ majToAndNodes a b c s.nodes.length).length
      simp [majToAndNodes]
    · intro env
      exact majToAndNodes_val env s a b c ha hb hc

theorem exXmgToMig_ok : ExpandOK exXmgToMig xmgKinds migKinds := by
  intro k es s hk hhc hes
  have hk' : k = .xor2 ∨ k = .maj3 := by simpa [xmgKinds] using hk
  rcases hk' with rfl | rfl
  · rcases es with _ | ⟨a, _ | ⟨b, _ | ⟨c, es⟩⟩⟩
    any_goals exact expand_fallback _ s hhc _ _ (fun env => rfl)
    have ha : a.node < s.nodes.length := hes a (by simp)
    have hb : b.node < s.nodes.length := hes b (by simp)
    refine ⟨⟨xorToMajNodes a b s.nodes.length, rfl, ?_⟩, ?_, ?_⟩
    · intro m hm
      simp only [xorToMajNodes, List.mem_cons, List.not_mem_nil, or_false] at hm
      rcases hm with rfl | rfl | rfl <;> rfl
    · show s.nodes.length + 2 < (s.nodes ++ xorToMajNodes a b s.nodes.length).length
      simp [xorToMajNodes]
    · intro env
      exact xorToMajNodes_val env s a b hhc ha hb
  · rcases es with _ | ⟨a, _ | ⟨b, _ | ⟨c, _ | ⟨d, es⟩⟩⟩⟩
    any_goals exact expand_fallback _ s hhc _ _ (fun env => rfl)
    refine ⟨⟨[NodeK.gate .maj3 [a, b, c]], rfl, ?_⟩, ?_, ?_⟩
    · intro m hm
      simp only [List.mem_singleton] at hm
      subst hm
      rfl
    · show s.nodes.length < (s.nodes ++ [NodeK.gate .maj3 [a, b, c]]).length
      simp
    · intro env
      show edgeVal (bvals env (addNode s (NodeK.gate .maj3 [a, b, c])).1)
          ⟨s.nodes.length, false⟩ = _
      rw [addNode_val, ← bvals_len env s, edgeVal_fresh, Bool.xor_false]
      rfl

/-! ### The representation converters of src/cli/stores.cpp

The `convert<...>` template specializations delegate to the structural
converters named below.  Their bodies are not among the provided source
files, so the gate-level decompositions are modelled from the spec (§4.2). -/

/-- Modelled from the spec: `mig_to_aig` — "to AND-inverter, each 3-input
majority node expands to a fixed 3-AND/1-OR (De Morgan) decomposition"
(§4.2); invoked by `convert<mig_graph, aig_graph>`. -/
def mig_to_aig (g : NetGraph) : NetGraph := convertNet exMigToAig g

/-- Modelled from the spec: `aig_to_mig` — "to majority, … falls back to
embedding AND as MAJ(x,y,0)" (§4.2); the pattern-matching fast path only
changes node counts, never functions, so the guaranteed-correct embedding is
modelled; invoked by `convert<aig_graph, mig_graph>`. -/
def aig_to_mig (g : NetGraph) : NetGraph := convertNet exAndAsMaj g

/-- Modelled from the spec: `xmg_from_aig` — AND gates embed into the mixed
XOR/majority representation as degenerate majority gates (§4.2); invoked by
`convert<aig_graph, xmg_graph>`. -/
def xmg_from_aig (g : NetGraph) : NetGraph := convertNet exAndAsMaj g

/-- Modelled from the spec: `xmg_create_aig_topological` — "XOR nodes
decompose into the target form's native gates (e.g., 3-AND pattern for
AND-inverter target)" and majority via De Morgan (§4.2); invoked by
`convert<xmg_graph, aig_graph>`. -/
def xmg_create_aig_topological (g : NetGraph) : NetGraph := convertNet exXmgToAig g

/-- Modelled from the spec: `xmg_from_mig` — majority gates carry over
directly into the mixed representation (§4.2); invoked by
`convert<mig_graph, xmg_graph>`. -/
def xmg_from_mig (g : NetGraph) : NetGraph := convertNet exMajAsMaj g

/-- Modelled from the spec: `xmg_create_mig_topological` — majority gates
carry over, XOR decomposes into majority gates with constant fan-ins (§4.2);
invoked by `convert<xmg_graph, mig_graph>`. -/
def xmg_create_mig_topological (g : NetGraph) : NetGraph := convertNet exXmgToMig g

/-- Is the node a primary input? -/
def isPiNode : NodeK → Bool
  | .pi _ => true
  | _ => false

/-- Is the node the constant node? -/
def isConstNode : NodeK → Bool
  | .const0 => true
  | _ => false

/-- Is the node an internal gate? -/
def isGateNode : NodeK → Bool
  | .gate _ _ => true
  | _ => false

/-- Number of primary-input nodes of a network. -/
def NetGraph.numPis (g : NetGraph) : Nat :=
  g.nodes.countP isPiNode

theorem mig_to_aig_sound (g : NetGraph) (hg : g.legal migKinds = true) :
    (mig_to_aig g).legal aigKinds = true ∧
    (mig_to_aig g).outNames = g.outNames ∧
    ∀ env, (mig_to_aig g).simulate env = g.simulate env :=
  convertNet_sound exMigToAig migKinds aigKinds exMigToAig_ok g hg

theorem aig_to_mig_sound (g : NetGraph) (hg : g.legal aigKinds = true) :
    (aig_to_mig g).legal migKinds = true ∧
    (aig_to_mig g).outNames = g.outNames ∧
    ∀ env, (aig_to_mig g).simulate env = g.simulate env :=
  convertNet_sound exAndAsMaj aigKinds migKinds
    (exAndAsMaj_ok migKinds (by simp [migKinds])) g hg

theorem xmg_from_aig_sound (g : NetGraph) (hg : g.legal aigKinds = true) :
    (xmg_from_aig g).legal xmgKinds = true ∧
    (xmg_from_aig g).outNames = g.outNames ∧
    ∀ env, (xmg_from_aig g).simulate env = g.simulate env :=
  convertNet_sound exAndAsMaj aigKinds xmgKinds
    (exAndAsMaj_ok xmgKinds (by simp [xmgKinds])) g hg

theorem xmg_to_aig_sound (g : NetGraph) (hg : g.legal xmgKinds = true) :
    (xmg_create_aig_topological g).legal aigKinds = true ∧
    (xmg_create_aig_topological g).outNames = g.outNames ∧
    ∀ env, (xmg_create_aig_topological g).simulate env = g.simulate env :=
  convertNet_sound exXmgToAig xmgKinds aigKinds exXmgToAig_ok g hg

theorem xmg_from_mig_sound (g : NetGraph) (hg : g.legal migKinds = true) :
    (xmg_from_mig g).legal xmgKinds = true ∧
    (xmg_from_mig g).outNames = g.outNames ∧
    ∀ env, (xmg_from_mig g).simulate env = g.simulate env :=
  convertNet_sound exMajAsMaj migKinds xmgKinds
    (exMajAsMaj_ok xmgKinds (by simp [xmgKinds])) g hg

theorem xmg_to_mig_sound (g : NetGraph) (hg : g.legal xmgKinds = true) :
    (xmg_create_mig_topological g).legal migKinds = true ∧
    (xmg_create_mig_topological g).outNames = g.outNames ∧
    ∀ env, (xmg_create_mig_topological g).simulate env = g.simulate env :=
  convertNet_sound exXmgToMig xmgKinds migKinds exXmgToMig_ok g hg

/-! ### The expression representation and its converters (spec §3, §4.2)

`expression_t` is an immutable operator tree over variables;
`convert<mig_graph, expression_t::ptr>` and
`convert<xmg_graph, expression_t::ptr>` in src/cli/stores.cpp reconstruct an
expression from the network's first output
(`mig_info( mig ).outputs.front().first`, `xmg.outputs().front().first`),
while the opposite directions build a fresh network and create a single
primary output named "f". -/

/-- An expression tree: constants, named leaves (variable indices), and
NOT/AND/OR/XOR/MAJ operator nodes. -/
inductive Expr where
  | const (b : Bool)
  | var (n : Nat)
  | not (e : Expr)
  | and (a b : Expr)
  | or (a b : Expr)
  | xor (a b : Expr)
  | maj (a b c : Expr)
deriving DecidableEq

/-- Boolean semantics of an expression under a variable assignment. -/
def Expr.eval (env : Nat → Bool) : Expr → Bool
  | .const b => b
  | .var n => env n
  | .not e => !(e.eval env)
  | .and a b => a.eval env && b.eval env
  | .or a b => a.eval env || b.eval env
  | .xor a b => Bool.xor (a.eval env) (b.eval env)
  | .maj a b c => (a.eval env && b.eval env)
      || ((b.eval env && c.eval env) || (a.eval env && c.eval env))

/-- Wrap an expression in a NOT if the polarity bit is set. -/
def wrapInv (b : Bool) (e : Expr) : Expr := if b then .not e else e

/-- The operator node corresponding to a gate kind. -/
def gateExpr : GateKind → List Expr → Expr
  | .and2, [a, b] => .and a b
  | .xor2, [a, b] => .xor a b
  | .maj3, [a, b, c] => .maj a b c
  | _, _ => .const false

/-- Modelled from the spec: "Graph form → Expression: inverse recursive
reconstruction from a chosen output edge, one recursion per node" (§4.2);
the reconstruction sources (`mig_to_expression`, `xmg_to_expression`) are
not among the provided files.  The fuel argument bounds the recursion depth;
`nodeExpr` supplies enough fuel for any backward-referencing node.  A fan-in
referencing position `i` or later contributes the constant reading of the
simulation semantics. -/
def nodeExprAux (nodes : List NodeK) : Nat → Nat → Expr
  | 0, _ => .const false
  | fuel + 1, i =>
    match nodes[i]? with
    | some (.gate k ins) =>
        gateExpr k (ins.map (fun e =>
          if e.node < i then wrapInv e.inv (nodeExprAux nodes fuel e.node)
          else wrapInv e.inv (.const false)))
    | some (.pi v) => .var v
    | _ => .const false

/-- Expression of the function realized at a node. -/
def nodeExpr (nodes : List NodeK) (i : Nat) : Expr :=
  nodeExprAux nodes (i + 1) i

/-- Expression of the function realized by an edge (polarity applied as a
top-level NOT). -/
def edgeToExpr (nodes : List NodeK) (e : Edge) : Expr :=
  wrapInv e.inv (nodeExpr nodes e.node)

/-- Modelled from the spec: `mig_to_expression` reconstructs an expression
from the chosen output edge of a majority graph (§4.2). -/
def mig_to_expression (g : NetGraph) (e : Edge) : Expr := edgeToExpr g.nodes e

/-- Modelled from the spec: `xmg_to_expression` reconstructs an expression
from the chosen output edge of a mixed graph (§4.2). -/
def xmg_to_expression (g : NetGraph) (e : Edge) : Expr := edgeToExpr g.nodes e

/-- Modelled from the spec: "Expression → any graph form: recursive descent;
each operator node becomes a graph node … MAJ-only representations decompose
AND/OR as degenerate majority with one constant input" (§4.2).  With
`xn = true` XOR maps to a native XOR gate (mixed target), otherwise to its
majority decomposition (majority target).  Sub-expression sharing only
affects node counts, never the realized function, and is not modelled. -/
def exprToNet (xn : Bool) : BState → Expr → BState × Edge
  | s, .const b => (s, ⟨0, b⟩)
  | s, .var v => addNode s (.pi v)
  | s, .not e =>
    let p := exprToNet xn s e
    (p.1, p.2.negate)
  | s, .and a b =>
    let pa := exprToNet xn s a
    let pb := exprToNet xn pa.1 b
    addNode pb.1 (.gate .maj3 [pa.2, pb.2, ⟨0, false⟩])
  | s, .or a b =>
    let pa := exprToNet xn s a
    let pb := exprToNet xn pa.1 b
    addNode pb.1 (.gate .maj3 [pa.2, pb.2, ⟨0, true⟩])
  | s, .xor a b =>
    let pa := exprToNet xn s a
    let pb := exprToNet xn pa.1 b
    if xn then
      addNode pb.1 (.gate .xor2 [pa.2, pb.2])
    else
      (⟨pb.1.nodes ++ xorToMajNodes pa.2 pb.2 pb.1.nodes.length⟩,
       ⟨pb.1.nodes.length + 2, false⟩)
  | s, .maj a b c =>
    let pa := exprToNet xn s a
    let pb := exprToNet xn pa.1 b
    let pc := exprToNet xn pb.1 c
    addNode pc.1 (.gate .maj3 [pa.2, pb.2, pc.2])

/-- Modelled from the spec: `mig_from_expression` builds majority-graph
nodes for an expression by recursive descent (§4.2). -/
def mig_from_expression (s : BState) (e : Expr) : BState × Edge :=
  exprToNet false s e

/-- Modelled from the spec: `xmg_from_expression` builds mixed-graph nodes
for an expression by recursive descent (§4.2). -/
def xmg_from_expression (s : BState) (e : Expr) : BState × Edge :=
  exprToNet true s e

/-- `convert<mig_graph, expression_t::ptr>` of src/cli/stores.cpp:
reconstruct from the first output only. -/
def convert_mig_to_expression (g : NetGraph) : Expr :=
  mig_to_expression g (g.outputs.getD 0 (cEdge, "")).1

/-- `convert<xmg_graph, expression_t::ptr>` of src/cli/stores.cpp:
reconstruct from the first output only. -/
def convert_xmg_to_expression (g : NetGraph) : Expr :=
  xmg_to_expression g (g.outputs.getD 0 (cEdge, "")).1

/-- `convert<expression_t::ptr, mig_graph>` of src/cli/stores.cpp: build a
fresh majority network and create one primary output named "f". -/
def convert_expression_to_mig (e : Expr) : NetGraph :=
  ⟨(mig_from_expression ⟨[NodeK.const0]⟩ e).1.nodes,
   [((mig_from_expression ⟨[NodeK.const0]⟩ e).2, "f")]⟩

/-- `convert<expression_t::ptr, xmg_graph>` of src/cli/stores.cpp: build a
fresh mixed network and create one primary output named "f". -/
def convert_expression_to_xmg (e : Expr) : NetGraph :=
  ⟨(xmg_from_expression ⟨[NodeK.const0]⟩ e).1.nodes,
   [((xmg_from_expression ⟨[NodeK.const0]⟩ e).2, "f")]⟩

theorem wrapInv_eval (b : Bool) (x : Expr) (env : Nat → Bool) :
    (wrapInv b x).eval env = Bool.xor (x.eval env) b := by
  cases b
  · show x.eval env = Bool.xor (x.eval env) false
    rw [Bool.xor_false]
  · show (Expr.not x).eval env = Bool.xor (x.eval env) true
    rw [Bool.xor_true]
    rfl

theorem gateExpr_eval (k : GateKind) (es : List Expr) (env : Nat → Bool) :
    (gateExpr k es).eval env = gateSem k (es.map (Expr.eval env)) := by
  cases k <;> rcases es with _ | ⟨a, _ | ⟨b, _ | ⟨c, _ | ⟨d, es⟩⟩⟩⟩ <;> rfl

/-- The reconstructed expression of a node realizes the node's simulated
value. -/
theorem nodeExprAux_sound (nodes : List NodeK) (env : Nat → Bool) :
    ∀ (fuel i : Nat), i < fuel →
      (nodeExprAux nodes fuel i).eval env
        = (accMap (evalNode env) [] nodes).getD i false := by
  intro fuel
  induction fuel with
  | zero => intro i hi; omega
  | succ fuel ih =>
    intro i hi
    cases hnode : nodes[i]? with
    | none =>
      have hlen : nodes.length ≤ i := by
        by_contra hcon
        rw [List.getElem?_eq_getElem (Nat.lt_of_not_le hcon)] at hnode
        cases hnode
      rw [getD_of_ge]
      · simp [nodeExprAux, hnode, Expr.eval]
      · rw [accMap_len]
        simpa using hlen
    | some n =>
      have hrhs := accMap_getD (evalNode env) false nodes [] i n hnode
      simp only [List.length_nil, Nat.zero_add] at hrhs
      rw [hrhs]
      cases n with
      | const0 => simp [nodeExprAux, hnode, Expr.eval, evalNode]
      | pi v => simp [nodeExprAux, hnode, Expr.eval, evalNode]
      | gate k ins =>
        show (nodeExprAux nodes (fuel + 1) i).eval env = _
        simp only [nodeExprAux, hnode]
        rw [gateExpr_eval]
        show _ = gateSem k (ins.map (edgeVal (accMap (evalNode env) [] (nodes.take i))))
        congr 1
        rw [List.map_map]
        have hpt : ∀ l : List Edge,
            l.map ((Expr.eval env) ∘ (fun e =>
              if e.node < i then wrapInv e.inv (nodeExprAux nodes fuel e.node)
              else wrapInv e.inv (.const false)))
            = l.map (edgeVal (accMap (evalNode env) [] (nodes.take i))) := by
          intro l
          induction l with
          | nil => rfl
          | cons e t iht =>
            simp only [List.map_cons, iht, Function.comp]
            congr 1
            by_cases he : e.node < i
            · simp only [he, if_pos]
              rw [wrapInv_eval]
              rw [ih e.node (by omega)]
              show _ = Bool.xor ((accMap (evalNode env) [] (nodes.take i)).getD e.node false) e.inv
              rw [accMap_take_getD (evalNode env) nodes i e.node false he]
            · simp only [he, if_neg, not_false_iff]
              rw [wrapInv_eval]
              show Bool.xor false e.inv = _
              have hge : (accMap (evalNode env) [] (nodes.take i)).length ≤ e.node := by
                rw [accMap_len]
                simp only [List.length_nil, Nat.zero_add, List.length_take]
                omega
              show _ = Bool.xor ((accMap (evalNode env) [] (nodes.take i)).getD e.node false) e.inv
              rw [getD_of_ge _ _ _ hge]
        exact hpt ins

/-- The reconstructed expression of an edge realizes the edge's simulated
value. -/
theorem edgeToExpr_sound (nodes : List NodeK) (env : Nat → Bool) (e : Edge) :
    (edgeToExpr nodes e).eval env
      = edgeVal (accMap (evalNode env) [] nodes) e := by
  unfold edgeToExpr nodeExpr
  rw [wrapInv_eval]
  rw [nodeExprAux_sound nodes env (e.node + 1) e.node (by omega)]
  rfl

theorem app_exists_trans (l1 l2 l3 n1 n2 : List α)
    (h1 : l2 = l1 ++ n1) (h2 : l3 = l2 ++ n2) : ∃ n, l3 = l1 ++ n :=
  ⟨n1 ++ n2, by rw [h2, h1, List.append_assoc]⟩

/-- Contract of a build step starting from state `s`: the arena only grows,
the returned edge is in range and realizes the value `v`. -/
def BuildOK (env : Nat → Bool) (s : BState) (p : BState × Edge) (v : Bool) : Prop :=
  (∃ new, p.1.nodes = s.nodes ++ new) ∧
  p.2.node < p.1.nodes.length ∧
  edgeVal (bvals env p.1) p.2 = v

theorem buildOK_headC {env : Nat → Bool} {s : BState} {p : BState × Edge}
    {v : Bool} (h : BuildOK env s p v) (hhc : headC s) : headC p.1 := by
  obtain ⟨⟨new, hnew⟩, _, _⟩ := h
  unfold headC
  rw [hnew]
  exact headC_app s new hhc

theorem buildOK_le {env : Nat → Bool} {s : BState} {p : BState × Edge}
    {v : Bool} (h : BuildOK env s p v) : s.nodes.length ≤ p.1.nodes.length := by
  obtain ⟨⟨new, hnew⟩, _, _⟩ := h
  rw [hnew]
  simp

theorem buildOK_stable {env : Nat → Bool} {s : BState} {p : BState × Edge}
    {v : Bool} (h : BuildOK env s p v) (e : Edge)
    (he : e.node < s.nodes.length) :
    edgeVal (bvals env p.1) e = edgeVal (bvals env s) e := by
  obtain ⟨⟨new, hnew⟩, _, _⟩ := h
  show edgeVal (accMap (evalNode env) [] p.1.nodes) e = _
  rw [hnew]
  exact edgeVal_ext env s.nodes new e he

theorem addGate_val (env : Nat → Bool) (s : BState) (k : GateKind)
    (ins : List Edge) :
    edgeVal (bvals env (addNode s (.gate k ins)).1) (addNode s (.gate k ins)).2
      = gateSem k (ins.map (edgeVal (bvals env s))) := by
  show edgeVal (bvals env (addNode s (.gate k ins)).1) ⟨s.nodes.length, false⟩ = _
  rw [addNode_val, ← bvals_len env s, edgeVal_fresh, Bool.xor_false]
  rfl

theorem exists_app_trans {l1 l2 l3 : List α}
    (h1 : ∃ n, l2 = l1 ++ n) (h2 : ∃ n, l3 = l2 ++ n) : ∃ n, l3 = l1 ++ n := by
  obtain ⟨n1, rfl⟩ := h1
  obtain ⟨n2, rfl⟩ := h2
  exact ⟨n1 ++ n2, by rw [List.append_assoc]⟩

theorem addNode_rng (s : BState) (n : NodeK) :
    (addNode s n).2.node < (addNode s n).1.nodes.length := by
  show s.nodes.length < (s.nodes ++ [n]).length
  simp

theorem xorMaj_rng (s : BState) (a b : Edge) :
    s.nodes.length + 2 < (s.nodes ++ xorToMajNodes a b s.nodes.length).length := by
  simp [xorToMajNodes]

/-- The recursive-descent expression builder returns an edge realizing the
expression's Boolean function. -/
theorem exprToNet_sound (xn : Bool) (env : Nat → Bool) :
    ∀ (e : Expr) (s : BState), headC s →
      BuildOK env s (exprToNet xn s e) (e.eval env) := by
  intro e
  induction e with
  | const b =>
    intro s hhc
    exact ⟨⟨[], by show s.nodes = s.nodes ++ []; simp⟩,
      headC_ne_nil s hhc, zeroEdge_val env s b hhc⟩
  | var v =>
    intro s hhc
    refine ⟨⟨[NodeK.pi v], rfl⟩, ?_, ?_⟩
    · show s.nodes.length < (s.nodes ++ [NodeK.pi v]).length
      simp
    · show edgeVal (bvals env (addNode s (NodeK.pi v)).1) ⟨s.nodes.length, false⟩ = _
      rw [addNode_val, ← bvals_len env s, edgeVal_fresh, Bool.xor_false]
      rfl
  | not e ihe =>
    intro s hhc
    have ha := ihe s hhc
    refine ⟨ha.1, ha.2.1, ?_⟩
    show edgeVal (bvals env (exprToNet xn s e).1) (exprToNet xn s e).2.negate = _
    rw [edgeVal_negate, ha.2.2]
    rfl
  | and a b iha ihb =>
    intro s hhc
    have ha := iha s hhc
    have hhca := buildOK_headC ha hhc
    have hb := ihb (exprToNet xn s a).1 hhca
    have hhcb := buildOK_headC hb hhca
    refine ⟨exists_app_trans (exists_app_trans ha.1 hb.1) ⟨_, rfl⟩, ?_, ?_⟩
    · exact addNode_rng _ _
    · refine Eq.trans (addGate_val env (exprToNet xn (exprToNet xn s a).1 b).1
        .maj3 [(exprToNet xn s a).2, (exprToNet xn (exprToNet xn s a).1 b).2,
          ⟨0, false⟩]) ?_
      have h1 : edgeVal (bvals env (exprToNet xn (exprToNet xn s a).1 b).1)
          (exprToNet xn s a).2 = a.eval env := by
        rw [buildOK_stable hb (exprToNet xn s a).2 ha.2.1]
        exact ha.2.2
      have h2 := hb.2.2
      have h3 := zeroEdge_val env (exprToNet xn (exprToNet xn s a).1 b).1 false hhcb
      simp only [List.map_cons, List.map_nil, h1, h2, h3]
      show gateSem .maj3 [a.eval env, b.eval env, false] = (a.eval env && b.eval env)
      generalize a.eval env = va
      generalize b.eval env = vb
      cases va <;> cases vb <;> rfl
  | or a b iha ihb =>
    intro s hhc
    have ha := iha s hhc
    have hhca := buildOK_headC ha hhc
    have hb := ihb (exprToNet xn s a).1 hhca
    have hhcb := buildOK_headC hb hhca
    refine ⟨exists_app_trans (exists_app_trans ha.1 hb.1) ⟨_, rfl⟩, ?_, ?_⟩
    · exact addNode_rng _ _
    · refine Eq.trans (addGate_val env (exprToNet xn (exprToNet xn s a).1 b).1
        .maj3 [(exprToNet xn s a).2, (exprToNet xn (exprToNet xn s a).1 b).2,
          ⟨0, true⟩]) ?_
      have h1 : edgeVal (bvals env (exprToNet xn (exprToNet xn s a).1 b).1)
          (exprToNet xn s a).2 = a.eval env := by
        rw [buildOK_stable hb (exprToNet xn s a).2 ha.2.1]
        exact ha.2.2
      have h2 := hb.2.2
      have h3 := zeroEdge_val env (exprToNet xn (exprToNet xn s a).1 b).1 true hhcb
      simp only [List.map_cons, List.map_nil, h1, h2, h3]
      show gateSem .maj3 [a.eval env, b.eval env, true] = (a.eval env || b.eval env)
      generalize a.eval env = va
      generalize b.eval env = vb
      cases va <;> cases vb <;> rfl
  | xor a b iha ihb =>
    intro s hhc
    have ha := iha s hhc
    have hhca := buildOK_headC ha hhc
    have hb := ihb (exprToNet xn s a).1 hhca
    have hhcb := buildOK_headC hb hhca
    have h1 : edgeVal (bvals env (exprToNet xn (exprToNet xn s a).1 b).1)
        (exprToNet xn s a).2 = a.eval env := by
      rw [buildOK_stable hb (exprToNet xn s a).2 ha.2.1]
      exact ha.2.2
    have h2 := hb.2.2
    cases xn with
    | true =>
      refine ⟨exists_app_trans (exists_app_trans ha.1 hb.1) ⟨_, rfl⟩, ?_, ?_⟩
      · exact addNode_rng _ _
      · refine Eq.trans (addGate_val env (exprToNet true (exprToNet true s a).1 b).1
          .xor2 [(exprToNet true s a).2, (exprToNet true (exprToNet true s a).1 b).2]) ?_
        simp only [List.map_cons, List.map_nil, h1, h2]
        rfl
    | false =>
      have hr1 : (exprToNet false s a).2.node
          < (exprToNet false (exprToNet false s a).1 b).1.nodes.length :=
        lt_of_lt_of_le ha.2.1 (buildOK_le hb)
      refine ⟨exists_app_trans (exists_app_trans ha.1 hb.1) ⟨_, rfl⟩, ?_, ?_⟩
      · exact xorMaj_rng _ _ _
      · refine Eq.trans (xorToMajNodes_val env
          (exprToNet false (exprToNet false s a).1 b).1
          (exprToNet false s a).2 (exprToNet false (exprToNet false s a).1 b).2
          hhcb hr1 hb.2.1) ?_
        simp only [List.map_cons, List.map_nil, h1, h2]
        rfl
  | maj a b c iha ihb ihc =>
    intro s hhc
    have ha := iha s hhc
    have hhca := buildOK_headC ha hhc
    have hb := ihb (exprToNet xn s a).1 hhca
    have hhcb := buildOK_headC hb hhca
    have hc := ihc (exprToNet xn (exprToNet xn s a).1 b).1 hhcb
    refine ⟨exists_app_trans (exists_app_trans (exists_app_trans ha.1 hb.1) hc.1)
      ⟨_, rfl⟩, ?_, ?_⟩
    · exact addNode_rng _ _
    · refine Eq.trans (addGate_val env
        (exprToNet xn (exprToNet xn (exprToNet xn s a).1 b).1 c).1
        .maj3 [(exprToNet xn s a).2, (exprToNet xn (exprToNet xn s a).1 b).2,
          (exprToNet xn (exprToNet xn (exprToNet xn s a).1 b).1 c).2]) ?_
      have h1 : edgeVal (bvals env
          (exprToNet xn (exprToNet xn (exprToNet xn s a).1 b).1 c).1)
          (exprToNet xn s a).2 = a.eval env := by
        rw [buildOK_stable hc (exprToNet xn s a).2
          (lt_of_lt_of_le ha.2.1 (buildOK_le hb))]
        rw [buildOK_stable hb (exprToNet xn s a).2 ha.2.1]
        exact ha.2.2
      have h2 : edgeVal (bvals env
          (exprToNet xn (exprToNet xn (exprToNet xn s a).1 b).1 c).1)
          (exprToNet xn (exprToNet xn s a).1 b).2 = b.eval env := by
        rw [buildOK_stable hc (exprToNet xn (exprToNet xn s a).1 b).2 hb.2.1]
        exact hb.2.2
      have h3 := hc.2.2
      simp only [List.map_cons, List.map_nil, h1, h2, h3]
      rfl

/-! ### Semantic extraction into a shared decision-diagram domain (spec §4.3)

`convert<aig_graph, bdd_function_t>` in src/cli/stores.cpp creates one
manager (`Cudd mgr`), runs the topological simulation
(`simulate_aig( aig, bdd_simulator( mgr ) )`) and collects one function
handle per primary output in output-list order
(`for o in aig_info( aig ).outputs: bdds.push_back( values[o.first] )`).
The decision-diagram domain is modelled as a manager owning a canonical
(hash-consed) table of function truth tables over its input variables;
handles are indices into the one table of the one manager, so canonicity
("same function, same handle") is the manager-sharing guarantee the spec
demands.  `simulate_aig` and the decision-diagram package are modelled from
the spec (§4.3), as their sources are not among the provided files. -/

/-- Variable assignment encoded as the bits of a natural number. -/
def envOf (a : Nat) : Nat → Bool := fun i => a.testBit i

/-- A decision-diagram manager: its number of input variables and the
canonical table of function representations created within it. -/
structure BddMgr where
  numVars : Nat
  table : List (List Bool)
deriving DecidableEq

/-- Truth table of a Boolean function over `n` variables. -/
def tabOf (n : Nat) (f : Nat → Bool) : List Bool := (List.range (2 ^ n)).map f

/-- The constant-false function table. -/
def falseTab (n : Nat) : List Bool := tabOf n (fun _ => false)

/-- First position of a function table in the manager's table, if present. -/
def lookupTab : List (List Bool) → List Bool → Option Nat
  | [], _ => none
  | u :: us, t => if u = t then some 0 else (lookupTab us t).map (fun j => j + 1)

/-- Canonical creation of a function handle: reuse the existing entry when
the function is already in the manager, otherwise append it (the
unique-table discipline of the decision-diagram package). -/
def mkFun (m : BddMgr) (t : List Bool) : BddMgr × Nat :=
  match lookupTab m.table t with
  | some i => (m, i)
  | none => (⟨m.numVars, m.table ++ [t]⟩, m.table.length)

/-- Function table carried by an edge: the referenced node's handle is
looked up and the polarity applied as complementation; a reference to a node
without a handle yet reads the constant-false function, matching the
simulation semantics. -/
def edgeTab (n : Nat) (m : BddMgr) (hs : List Nat) (e : Edge) : List Bool :=
  match hs[e.node]? with
  | none => if e.inv then (falseTab n).map (fun x => !x) else falseTab n
  | some h =>
    if e.inv then (m.table.getD h (falseTab n)).map (fun x => !x)
    else m.table.getD h (falseTab n)

/-- Function table computed for one node from its fan-ins' handles. -/
def bddNodeTab (n : Nat) (m : BddMgr) (hs : List Nat) : NodeK → List Bool
  | .const0 => falseTab n
  | .pi i => tabOf n (fun a => envOf a i)
  | .gate k ins =>
    tabOf n (fun a => gateSem k (ins.map (fun e => (edgeTab n m hs e).getD a false)))

/-- One step of the topological simulation: compute the node's function,
create its canonical handle, memoize it. -/
def bddStep (n : Nat) (p : BddMgr × List Nat) (node : NodeK) : BddMgr × List Nat :=
  ((mkFun p.1 (bddNodeTab n p.1 p.2 node)).1,
   p.2 ++ [(mkFun p.1 (bddNodeTab n p.1 p.2 node)).2])

/-- Modelled from the spec: `simulate_aig` with the `bdd_simulator` —
"process nodes in topological order; … memoize the node's computed handle
keyed by node id" (§4.3). -/
def bdd_simulate_aig (n : Nat) (g : NetGraph) : BddMgr × List Nat :=
  g.nodes.foldl (bddStep n) (⟨n, []⟩, [])

/-- `convert<aig_graph, bdd_function_t>` of src/cli/stores.cpp: one shared
manager for the whole network, one handle per primary output, in
output-list order. -/
def convert_aig_to_bdd (n : Nat) (g : NetGraph) : BddMgr × List Nat :=
  g.outputs.foldl
    (fun q o =>
      ((mkFun q.1 (edgeTab n q.1 (bdd_simulate_aig n g).2 o.1)).1,
       q.2 ++ [(mkFun q.1 (edgeTab n q.1 (bdd_simulate_aig n g).2 o.1)).2]))
    ((bdd_simulate_aig n g).1, [])

/-- Minterm count of a function handle: the number of satisfying rows of its
table (the `CountMinterm` query of `print_statistics<bdd_function_t>`). -/
def minterm_count (m : BddMgr) (h : Nat) : Nat :=
  (m.table.getD h []).countP (fun x => x)

/-- Brute-force enumeration of satisfying assignments of output `j` over all
`2^n` input assignments. -/
def brute_minterm_count (n : Nat) (g : NetGraph) (j : Nat) : Nat :=
  (List.range (2 ^ n)).countP (fun a => (g.simulate (envOf a)).getD j false)

theorem tabOf_getD (n : Nat) (f : Nat → Bool) (a : Nat) (d : Bool)
    (h : a < 2 ^ n) : (tabOf n f).getD a d = f a := by
  unfold tabOf List.getD
  rw [List.get?_map, List.get?_range h]
  rfl

theorem tabOf_len (n : Nat) (f : Nat → Bool) : (tabOf n f).length = 2 ^ n := by
  unfold tabOf
  simp

theorem getD_default_irrel (l : List α) (i : Nat) (d1 d2 : α)
    (h : i < l.length) : l.getD i d1 = l.getD i d2 := by
  unfold List.getD
  rw [List.get?_eq_get h]
  rfl

theorem getElem?_some_lt (l : List α) (i : Nat) (x : α)
    (h : l[i]? = some x) : i < l.length := by
  by_contra hcon
  rw [List.getElem?_eq_none (Nat.le_of_not_lt hcon)] at h
  cases h

theorem getD_map_lt (l : List β) (f : β → α) (j : Nat) (d : α) (d0 : β)
    (h : j < l.length) : (l.map f).getD j d = f (l.getD j d0) := by
  unfold List.getD
  rw [List.get?_map, List.get?_eq_get h]
  rfl

theorem lookupTab_some :
    ∀ (l : List (List Bool)) (t : List Bool) (i : Nat),
      lookupTab l t = some i → i < l.length ∧ l.getD i [] = t := by
  intro l
  induction l with
  | nil => intro t i h; cases h
  | cons u us ih =>
    intro t i h
    by_cases he : u = t
    · simp only [lookupTab, he, if_pos] at h
      cases h
      exact ⟨by simp, he⟩
    · simp only [lookupTab, he, if_neg, not_false_iff] at h
      cases hl : lookupTab us t with
      | none => rw [hl] at h; cases h
      | some j =>
        rw [hl] at h
        have hh : some (j + 1) = some i := h
        injection hh with hh
        subst hh
        obtain ⟨h1, h2⟩ := ih t j hl
        exact ⟨by simpa using h1, by simpa using h2⟩

theorem mkFun_spec (m : BddMgr) (t : List Bool) :
    (∃ ap, (mkFun m t).1.table = m.table ++ ap) ∧
    (mkFun m t).1.numVars = m.numVars ∧
    (mkFun m t).2 < (mkFun m t).1.table.length ∧
    (mkFun m t).1.table.getD (mkFun m t).2 [] = t := by
  unfold mkFun
  cases hl : lookupTab m.table t with
  | some i =>
    obtain ⟨h1, h2⟩ := lookupTab_some m.table t i hl
    exact ⟨⟨[], by simp⟩, rfl, h1, h2⟩
  | none =>
    refine ⟨⟨[t], rfl⟩, rfl, by simp, ?_⟩
    show (m.table ++ [t]).getD m.table.length [] = t
    rw [getD_app_len]
    rfl

theorem accMap_snoc_lt (f : List α → NodeK → α) (ps : List NodeK) (n : NodeK)
    (i : Nat) (d : α) (hi : i < ps.length) :
    (accMap f [] (ps ++ [n])).getD i d = (accMap f [] ps).getD i d := by
  have := accMap_take_getD f (ps ++ [n]) ps.length i d hi
  rw [List.take_left] at this
  exact this.symm

theorem accMap_snoc_at (f : List α → NodeK → α) (ps : List NodeK) (n : NodeK)
    (d : α) :
    (accMap f [] (ps ++ [n])).getD ps.length d = f (accMap f [] ps) n := by
  have hidx : (ps ++ [n])[ps.length]? = some n := by
    rw [List.getElem?_append_right (Nat.le_refl _)]
    simp
  have := accMap_getD f d (ps ++ [n]) [] ps.length n hidx
  simpa [List.take_left] using this

/-- A looked-up edge table reads, row for row, the edge's simulated value. -/
theorem edgeTab_val (n : Nat) (m : BddMgr) (hs : List Nat) (ps : List NodeK)
    (hlen : hs.length = ps.length)
    (hinv : ∀ i h, hs[i]? = some h → h < m.table.length ∧
        m.table.getD h [] = tabOf n
          (fun a => (accMap (evalNode (envOf a)) [] ps).getD i false))
    (e : Edge) (a : Nat) (ha : a < 2 ^ n) :
    (edgeTab n m hs e).getD a false
      = edgeVal (accMap (evalNode (envOf a)) [] ps) e := by
  unfold edgeTab
  cases hnode : hs[e.node]? with
  | none =>
    have hge : ps.length ≤ e.node := by
      by_contra hcon
      have h2 : e.node < hs.length := by omega
      rw [List.getElem?_eq_getElem h2] at hnode
      cases hnode
    have hv : (accMap (evalNode (envOf a)) [] ps).getD e.node false = false := by
      apply getD_of_ge
      rw [accMap_len]
      simpa using hge
    unfold edgeVal
    rw [hv]
    rcases he : e.inv with _ | _
    · simp only [he, if_neg, Bool.false_eq_true, not_false_iff]
      unfold falseTab
      rw [tabOf_getD _ _ _ _ ha]
      rfl
    · simp only [he, if_pos]
      unfold falseTab tabOf
      rw [List.map_map]
      rw [show ((fun x => !x) ∘ (fun _ => false) : Nat → Bool) = fun _ => true
        from rfl]
      show (tabOf n (fun _ => true)).getD a false = _
      rw [tabOf_getD _ _ _ _ ha]
      rfl
  | some h =>
    obtain ⟨hh1, hh2⟩ := hinv e.node h hnode
    have hdef : m.table.getD h (falseTab n) = m.table.getD h [] :=
      getD_default_irrel _ _ _ _ hh1
    show (if e.inv = true then List.map (fun x => !x) (m.table.getD h (falseTab n))
        else m.table.getD h (falseTab n)).getD a false = _
    rw [hdef, hh2]
    unfold edgeVal
    rcases he : e.inv with _ | _
    · simp only [he, if_neg, Bool.false_eq_true, not_false_iff]
      rw [tabOf_getD _ _ _ _ ha, Bool.xor_false]
    · simp only [he, if_pos]
      unfold tabOf
      rw [List.map_map]
      show ((List.range (2 ^ n)).map (fun a =>
        !((accMap (evalNode (envOf a)) [] ps).getD e.node false))).getD a false = _
      rw [show ((List.range (2 ^ n)).map (fun a =>
          !((accMap (evalNode (envOf a)) [] ps).getD e.node false)))
        = tabOf n (fun a =>
          !((accMap (evalNode (envOf a)) [] ps).getD e.node false)) from rfl]
      rw [tabOf_getD _ _ _ _ ha, Bool.xor_true]

/-- Handle-table invariant of the topological simulation over the processed
prefix `ps`: every memoized handle indexes the one manager table and holds
the exact function of its node. -/
def NodeInv (n : Nat) (ps : List NodeK) (p : BddMgr × List Nat) : Prop :=
  p.1.numVars = n ∧
  p.2.length = ps.length ∧
  ∀ i h, p.2[i]? = some h → h < p.1.table.length ∧
    p.1.table.getD h [] = tabOf n
      (fun a => (accMap (evalNode (envOf a)) [] ps).getD i false)

theorem bdd_fold_inv (n : Nat) :
    ∀ (ns ps : List NodeK) (p : BddMgr × List Nat),
      NodeInv n ps p →
      NodeInv n (ps ++ ns) (ns.foldl (bddStep n) p) ∧
      ∃ ap, (ns.foldl (bddStep n) p).1.table = p.1.table ++ ap := by
  intro ns
  induction ns with
  | nil =>
    intro ps p hp
    constructor
    · rw [List.append_nil]
      exact hp
    · exact ⟨[], by show p.1.table = p.1.table ++ []; simp⟩
  | cons node ns ih =>
    intro ps p hp
    obtain ⟨hnv, hlen, hinv⟩ := hp
    obtain ⟨⟨ap, hap⟩, hnv2, hhlt, hhget⟩ :=
      mkFun_spec p.1 (bddNodeTab n p.1 p.2 node)
    have htab : bddNodeTab n p.1 p.2 node
        = tabOf n (fun a =>
            evalNode (envOf a) (accMap (evalNode (envOf a)) [] ps) node) := by
      cases node with
      | const0 => rfl
      | pi v => rfl
      | gate k ins =>
        show tabOf n _ = tabOf n _
        unfold tabOf
        apply List.map_congr_left
        intro a hmem
        have ha : a < 2 ^ n := List.mem_range.mp hmem
        show gateSem k (ins.map (fun e => (edgeTab n p.1 p.2 e).getD a false))
            = gateSem k (ins.map (edgeVal (accMap (evalNode (envOf a)) [] ps)))
        congr 1
        apply List.map_congr_left
        intro e hemem
        exact edgeTab_val n p.1 p.2 ps hlen hinv e a ha
    have hp' : NodeInv n (ps ++ [node]) (bddStep n p node) := by
      refine ⟨hnv2.trans hnv, ?_, ?_⟩
      · show (p.2 ++ [_]).length = (ps ++ [node]).length
        simp [hlen]
      · intro i h hget
        have hget2 : (p.2 ++ [(mkFun p.1 (bddNodeTab n p.1 p.2 node)).2])[i]?
            = some h := hget
        rcases Nat.lt_trichotomy i p.2.length with hi | hi | hi
        · have hgetold : p.2[i]? = some h := by
            rw [List.getElem?_append_left hi] at hget2
            exact hget2
          obtain ⟨ho1, ho2⟩ := hinv i h hgetold
          refine ⟨?_, ?_⟩
          · show h < (mkFun p.1 (bddNodeTab n p.1 p.2 node)).1.table.length
            rw [hap]
            simp only [List.length_append]
            omega
          · show (mkFun p.1 (bddNodeTab n p.1 p.2 node)).1.table.getD h [] = _
            rw [hap, getD_app_lt _ _ _ _ ho1, ho2]
            unfold tabOf
            apply List.map_congr_left
            intro a hmem
            rw [accMap_snoc_lt _ ps node i false (by omega)]
        · subst hi
          rw [List.getElem?_append_right (Nat.le_refl _)] at hget2
          simp only [Nat.sub_self, List.getElem?_cons_zero, Option.some_inj] at hget2
          subst hget2
          refine ⟨hhlt, ?_⟩
          show (mkFun p.1 (bddNodeTab n p.1 p.2 node)).1.table.getD
            (mkFun p.1 (bddNodeTab n p.1 p.2 node)).2 [] = _
          rw [hhget, htab]
          unfold tabOf
          apply List.map_congr_left
          intro a hmem
          rw [hlen, accMap_snoc_at]
        · exfalso
          have hout : (p.2 ++ [(mkFun p.1 (bddNodeTab n p.1 p.2 node)).2]).length ≤ i := by
            simp only [List.length_append, List.length_cons, List.length_nil]
            omega
          rw [List.getElem?_eq_none hout] at hget2
          cases hget2
    have hrest := ih (ps ++ [node]) (bddStep n p node) hp'
    constructor
    · have := hrest.1
      rw [List.append_assoc] at this
      exact this
    · obtain ⟨ap2, h2⟩ := hrest.2
      refine ⟨ap ++ ap2, ?_⟩
      show (ns.foldl (bddStep n) (bddStep n p node)).1.table = _
      rw [h2]
      show (mkFun p.1 (bddNodeTab n p.1 p.2 node)).1.table ++ ap2 = _
      rw [hap, List.append_assoc]

theorem list_ext_getD (l1 l2 : List α) (d : α) (hlen : l1.length = l2.length)
    (h : ∀ i, i < l1.length → l1.getD i d = l2.getD i d) : l1 = l2 := by
  apply List.ext_get hlen
  intro i h1 h2
  have := h i h1
  unfold List.getD at this
  rw [List.get?_eq_get h1, List.get?_eq_get h2] at this
  simpa using this

theorem edgeTab_len (n : Nat) (m : BddMgr) (hs : List Nat) (ps : List NodeK)
    (hinv : ∀ i h, hs[i]? = some h → h < m.table.length ∧
        m.table.getD h [] = tabOf n
          (fun a => (accMap (evalNode (envOf a)) [] ps).getD i false))
    (e : Edge) : (edgeTab n m hs e).length = 2 ^ n := by
  unfold edgeTab
  cases hnode : hs[e.node]? with
  | none =>
    rcases he : e.inv with _ | _ <;>
      simp [he, falseTab, tabOf_len]
  | some h =>
    obtain ⟨hh1, hh2⟩ := hinv e.node h hnode
    have hdef : m.table.getD h (falseTab n) = m.table.getD h [] :=
      getD_default_irrel _ _ _ _ hh1
    show (if e.inv = true then List.map (fun x => !x) (m.table.getD h (falseTab n))
        else m.table.getD h (falseTab n)).length = 2 ^ n
    rcases he : e.inv with _ | _
    · simp only [he, if_neg, Bool.false_eq_true, not_false_iff]
      rw [hdef, hh2, tabOf_len]
    · simp only [he, if_pos]
      rw [List.length_map, hdef, hh2, tabOf_len]

theorem edgeTab_tab (n : Nat) (m : BddMgr) (hs : List Nat) (ps : List NodeK)
    (hlen : hs.length = ps.length)
    (hinv : ∀ i h, hs[i]? = some h → h < m.table.length ∧
        m.table.getD h [] = tabOf n
          (fun a => (accMap (evalNode (envOf a)) [] ps).getD i false))
    (e : Edge) :
    edgeTab n m hs e
      = tabOf n (fun a => edgeVal (accMap (evalNode (envOf a)) [] ps) e) := by
  have hl : (edgeTab n m hs e).length = 2 ^ n := edgeTab_len n m hs ps hinv e
  apply list_ext_getD _ _ false
  · rw [hl, tabOf_len]
  · intro a ha
    rw [hl] at ha
    rw [edgeTab_val n m hs ps hlen hinv e a ha, tabOf_getD _ _ _ _ ha]

theorem getElem?_eq_some_getD (l : List α) (j : Nat) (d : α)
    (h : j < l.length) : l[j]? = some (l.getD j d) := by
  unfold List.getD
  rw [List.get?_eq_get h]
  rw [List.getElem?_eq_getElem h]
  rw [List.get_eq_getElem]
  rfl

/-- Invariant of the output-handle collection loop. -/
theorem out_fold_inv (n : Nat) (g : NetGraph)
    (hsim : NodeInv n g.nodes (bdd_simulate_aig n g)) :
    ∀ (os qs : List (Edge × String)) (q : BddMgr × List Nat),
      q.1.numVars = n →
      (∃ ap, q.1.table = (bdd_simulate_aig n g).1.table ++ ap) →
      q.2.length = qs.length →
      (∀ j h, q.2[j]? = some h → h < q.1.table.length ∧
        q.1.table.getD h [] = tabOf n (fun a =>
          edgeVal (accMap (evalNode (envOf a)) [] g.nodes)
            ((qs.getD j (cEdge, "")).1))) →
      (os.foldl (fun q o =>
          ((mkFun q.1 (edgeTab n q.1 (bdd_simulate_aig n g).2 o.1)).1,
           q.2 ++ [(mkFun q.1 (edgeTab n q.1 (bdd_simulate_aig n g).2 o.1)).2])) q).1.numVars
        = n ∧
      (os.foldl (fun q o =>
          ((mkFun q.1 (edgeTab n q.1 (bdd_simulate_aig n g).2 o.1)).1,
           q.2 ++ [(mkFun q.1 (edgeTab n q.1 (bdd_simulate_aig n g).2 o.1)).2])) q).2.length
        = qs.length + os.length ∧
      ∀ j h,
        (os.foldl (fun q o =>
          ((mkFun q.1 (edgeTab n q.1 (bdd_simulate_aig n g).2 o.1)).1,
           q.2 ++ [(mkFun q.1 (edgeTab n q.1 (bdd_simulate_aig n g).2 o.1)).2])) q).2[j]?
            = some h →
        h < (os.foldl (fun q o =>
          ((mkFun q.1 (edgeTab n q.1 (bdd_simulate_aig n g).2 o.1)).1,
           q.2 ++ [(mkFun q.1 (edgeTab n q.1 (bdd_simulate_aig n g).2 o.1)).2])) q).1.table.length ∧
        (os.foldl (fun q o =>
          ((mkFun q.1 (edgeTab n q.1 (bdd_simulate_aig n g).2 o.1)).1,
           q.2 ++ [(mkFun q.1 (edgeTab n q.1 (bdd_simulate_aig n g).2 o.1)).2])) q).1.table.getD h []
          = tabOf n (fun a =>
              edgeVal (accMap (evalNode (envOf a)) [] g.nodes)
                (((qs ++ os).getD j (cEdge, "")).1)) := by
  intro os
  induction os with
  | nil =>
    intro qs q hq1 hq2 hq3 hq4
    refine ⟨hq1, by simpa using hq3, ?_⟩
    intro j h hget
    have := hq4 j h hget
    simpa using this
  | cons o os ih =>
    intro qs q hq1 hq2 hq3 hq4
    simp only [List.foldl_cons]
    obtain ⟨apq, hapq⟩ := hq2
    have hinvq : ∀ i h, (bdd_simulate_aig n g).2[i]? = some h →
        h < q.1.table.length ∧
        q.1.table.getD h [] = tabOf n
          (fun a => (accMap (evalNode (envOf a)) [] g.nodes).getD i false) := by
      intro i h hget
      obtain ⟨h1, h2⟩ := hsim.2.2 i h hget
      refine ⟨?_, ?_⟩
      · rw [hapq]
        simp only [List.length_append]
        omega
      · rw [hapq, getD_app_lt _ _ _ _ h1, h2]
    have htab : edgeTab n q.1 (bdd_simulate_aig n g).2 o.1
        = tabOf n (fun a =>
            edgeVal (accMap (evalNode (envOf a)) [] g.nodes) o.1) :=
      edgeTab_tab n q.1 (bdd_simulate_aig n g).2 g.nodes hsim.2.1 hinvq o.1
    obtain ⟨⟨ap2, hap2⟩, hnv2, hlt2, hget2⟩ :=
      mkFun_spec q.1 (edgeTab n q.1 (bdd_simulate_aig n g).2 o.1)
    have hstep := ih (qs ++ [o])
      ((mkFun q.1 (edgeTab n q.1 (bdd_simulate_aig n g).2 o.1)).1,
       q.2 ++ [(mkFun q.1 (edgeTab n q.1 (bdd_simulate_aig n g).2 o.1)).2])
      (hnv2.trans hq1)
      (⟨apq ++ ap2, by rw [hap2, hapq, List.append_assoc]⟩)
      (by simp [hq3])
      (by
        intro j h hget
        have hget2' : (q.2 ++ [(mkFun q.1 (edgeTab n q.1 (bdd_simulate_aig n g).2 o.1)).2])[j]?
            = some h := hget
        rcases Nat.lt_trichotomy j q.2.length with hj | hj | hj
        · rw [List.getElem?_append_left hj] at hget2'
          obtain ⟨ho1, ho2⟩ := hq4 j h hget2'
          refine ⟨?_, ?_⟩
          · rw [hap2]
            simp only [List.length_append]
            omega
          · rw [hap2, getD_app_lt _ _ _ _ ho1, ho2]
            rw [getD_app_lt _ _ _ _ (by omega : j < qs.length)]
        · subst hj
          rw [List.getElem?_append_right (Nat.le_refl _)] at hget2'
          simp only [Nat.sub_self, List.getElem?_cons_zero, Option.some_inj] at hget2'
          subst hget2'
          refine ⟨hlt2, ?_⟩
          rw [hget2, htab]
          rw [hq3, getD_app_len]
          rfl
        · exfalso
          have hout : (q.2 ++ [(mkFun q.1 (edgeTab n q.1 (bdd_simulate_aig n g).2 o.1)).2]).length ≤ j := by
            simp only [List.length_append, List.length_cons, List.length_nil]
            omega
          rw [List.getElem?_eq_none hout] at hget2'
          cases hget2')
    refine ⟨hstep.1, ?_, ?_⟩
    · rw [hstep.2.1]
      simp only [List.length_append, List.length_cons, List.length_nil]
      omega
    · intro j h hget
      have := hstep.2.2 j h hget
      rw [List.append_assoc] at this
      exact this

/-- Full specification of `convert<aig_graph, bdd_function_t>`: one handle
per output, in output order, every handle valid in the one shared manager
and holding the exact output function. -/
theorem convert_aig_to_bdd_spec (n : Nat) (g : NetGraph) :
    (convert_aig_to_bdd n g).1.numVars = n ∧
    (convert_aig_to_bdd n g).2.length = g.outputs.length ∧
    ∀ j, j < g.outputs.length →
      (convert_aig_to_bdd n g).2.getD j 0 < (convert_aig_to_bdd n g).1.table.length ∧
      (convert_aig_to_bdd n g).1.table.getD ((convert_aig_to_bdd n g).2.getD j 0) []
        = tabOf n (fun a => (g.simulate (envOf a)).getD j false) := by
  have hbase : NodeInv n ([] : List NodeK) ((⟨n, []⟩ : BddMgr), ([] : List Nat)) := by
    refine ⟨rfl, rfl, ?_⟩
    intro i h hget
    exact absurd hget (by simp)
  have hsim := (bdd_fold_inv n g.nodes [] (⟨n, []⟩, []) hbase).1
  rw [List.nil_append] at hsim
  have hout := out_fold_inv n g hsim g.outputs []
    ((bdd_simulate_aig n g).1, [])
    hsim.1
    ⟨[], by simp⟩
    rfl
    (by intro j h hget; exact absurd hget (by simp))
  have hlen2 : (convert_aig_to_bdd n g).2.length = g.outputs.length := by
    have := hout.2.1
    simpa using this
  refine ⟨hout.1, hlen2, ?_⟩
  intro j hj
  have hjlen : j < (convert_aig_to_bdd n g).2.length := by
    rw [hlen2]
    exact hj
  have hget : (convert_aig_to_bdd n g).2[j]?
      = some ((convert_aig_to_bdd n g).2.getD j 0) :=
    getElem?_eq_some_getD _ _ _ hjlen
  have := hout.2.2 j ((convert_aig_to_bdd n g).2.getD j 0) hget
  refine ⟨this.1, ?_⟩
  refine Eq.trans this.2 ?_
  unfold tabOf
  apply List.map_congr_left
  intro a hmem
  show edgeVal (accMap (evalNode (envOf a)) [] g.nodes)
      ((([] ++ g.outputs).getD j (cEdge, "")).1) = _
  rw [List.nil_append]
  show _ = (g.outputs.map (fun o => edgeVal (g.vals (envOf a)) o.1)).getD j false
  rw [getD_map_lt _ _ _ _ (cEdge, "") hj]
  rfl

/-- The minterm count of an output handle equals brute-force enumeration. -/
theorem minterm_count_exact (n : Nat) (g : NetGraph) (j : Nat)
    (hj : j < g.outputs.length) :
    minterm_count (convert_aig_to_bdd n g).1 ((convert_aig_to_bdd n g).2.getD j 0)
      = brute_minterm_count n g j := by
  obtain ⟨_, _, hspec⟩ := convert_aig_to_bdd_spec n g
  obtain ⟨h1, h2⟩ := hspec j hj
  unfold minterm_count brute_minterm_count
  rw [h2]
  unfold tabOf
  rw [List.countP_map]
  rfl

theorem brute_minterm_count_le (n : Nat) (g : NetGraph) (j : Nat) :
    brute_minterm_count n g j ≤ 2 ^ n := by
  unfold brute_minterm_count
  calc (List.range (2 ^ n)).countP _ ≤ (List.range (2 ^ n)).length :=
        List.countP_le_length _
    _ = 2 ^ n := List.length_range _

/-! ### Analysis statistics (spec §4.4; log_statistics in src/cli/stores.cpp)

`log_statistics<aig_graph>` and `log_statistics<mig_graph>` report
`"size"` as `boost::num_vertices( g ) - info.inputs.size() - 1u` and
`"depth"` as `compute_depth( g, outputs )` over the source nodes of the
primary outputs.  `compute_depth` itself (core/graph/depth.hpp) is modelled
from the spec: level(primary input) = 0, level(internal node) = 1 + max of
fan-in levels, network depth = max over the outputs' source-node levels. -/

/-- The size statistic as reported by `log_statistics`: number of graph
vertices minus the number of primary inputs minus one (the constant node). -/
def size_statistic (g : NetGraph) : Nat := g.nodes.length - g.numPis - 1

/-- Count of internal (gate) nodes. -/
def num_internal (g : NetGraph) : Nat := g.nodes.countP isGateNode

/-- Count of constant nodes. -/
def num_consts (g : NetGraph) : Nat := g.nodes.countP isConstNode

/-- Level of one node given the levels of the already-processed nodes.
Modelled from the spec (§4.4): level(primary input) = 0,
level(internal node) = 1 + max of fan-in levels. -/
def levelNode (lvls : List Nat) : NodeK → Nat
  | .gate _ ins => 1 + (ins.map (fun e => lvls.getD e.node 0)).foldr max 0
  | _ => 0

/-- Modelled from the spec: `compute_depth` — dynamic program over
topological order; network depth = max over the levels of the outputs'
source nodes (§4.4; invoked by `log_statistics` with the output nodes). -/
def compute_depth (g : NetGraph) : Nat :=
  (g.outputs.map (fun o => (accMap levelNode [] g.nodes).getD o.1.node 0)).foldr max 0

/-- Every node is exactly one of constant, input, gate. -/
theorem count_partition (ns : List NodeK) :
    ns.length
      = ns.countP isConstNode + (ns.countP isPiNode + ns.countP isGateNode) := by
  induction ns with
  | nil => rfl
  | cons n ns ih =>
    cases n <;>
      simp [List.countP_cons, ih, isConstNode, isPiNode, isGateNode] <;> omega

theorem foldr_max_le (l : List Nat) (b : Nat) (h : ∀ x ∈ l, x ≤ b) :
    l.foldr max 0 ≤ b := by
  induction l with
  | nil => exact Nat.zero_le b
  | cons x t ih =>
    simp only [List.foldr_cons]
    exact max_le (h x (by simp)) (ih fun y hy => h y (by simp [hy]))

/-- Each level is bounded by the number of gates processed: a gate can
contribute at most one level. -/
theorem levels_bound :
    ∀ (ns : List NodeK) (acc : List Nat) (b : Nat),
      (∀ x ∈ acc, x ≤ b) →
      ∀ x ∈ accMap levelNode acc ns, x ≤ b + ns.countP isGateNode := by
  intro ns
  induction ns with
  | nil =>
    intro acc b hb x hx
    simpa using hb x hx
  | cons n ns ih =>
    intro acc b hb x hx
    have hentry : levelNode acc n
        ≤ b + (if isGateNode n = true then 1 else 0) := by
      cases n with
      | const0 => exact Nat.zero_le _
      | pi v => exact Nat.zero_le _
      | gate k ins =>
        show 1 + (ins.map (fun e => acc.getD e.node 0)).foldr max 0 ≤ b + 1
        have hmax : (ins.map (fun e => acc.getD e.node 0)).foldr max 0 ≤ b := by
          apply foldr_max_le
          intro y hy
          obtain ⟨e, he, rfl⟩ := List.mem_map.mp hy
          by_cases hlt : e.node < acc.length
          · exact hb _ (getD_mem acc e.node 0 hlt)
          · rw [getD_of_ge _ _ _ (Nat.le_of_not_lt hlt)]
            exact Nat.zero_le b
        omega
    have hstep := ih (acc ++ [levelNode acc n])
      (b + (if isGateNode n = true then 1 else 0))
      (by
        intro y hy
        rcases List.mem_append.mp hy with h | h
        · have := hb y h
          omega
        · simp only [List.mem_singleton] at h
          subst h
          exact hentry)
      x hx
    rw [List.countP_cons]
    omega

/-- Depth is at most the internal node count. -/
theorem compute_depth_le_internal (g : NetGraph) :
    compute_depth g ≤ num_internal g := by
  unfold compute_depth num_internal
  apply foldr_max_le
  intro x hx
  obtain ⟨o, ho, rfl⟩ := List.mem_map.mp hx
  by_cases hlt : o.1.node < (accMap levelNode [] g.nodes).length
  · have hmem := getD_mem _ o.1.node 0 hlt
    have := levels_bound g.nodes [] 0 (by simp) _ hmem
    simpa using this
  · rw [getD_of_ge _ _ _ (Nat.le_of_not_lt hlt)]
    exact Nat.zero_le _

/-! ### Command layer: file reading and store preconditions

`ALICE_READ_FILE(aig_t, aiger)` and `ALICE_READ_FILE(aig_t, verilog)`
construct a fresh default network, run the external lorina reader over the
file, and, if the reader reports anything but success, print
`"[w] parse error"` and still return the (default) network, so the shell
session continues.  The lorina reader is external; per spec (§7,
ParseError) a failed parse leaves the command with the default network. -/

/-- The freshly default-constructed network (one constant node, no
inputs/outputs) that a reader command starts from. -/
def default_network : NetGraph := ⟨[NodeK.const0], []⟩

/-- Model of the `ALICE_READ_FILE(aig_t, aiger/verilog)` bodies: the
reader's outcome is `some net` on success and `none` on a parse error; the
command returns its diagnostics and the resulting network, never throwing. -/
def aig_read_command (parse : Option NetGraph) : List String × NetGraph :=
  match parse with
  | some net => ([], net)
  | none => (["[w] parse error"], default_network)

/-- Outcome of running a command through the alice validity-rule harness:
either a named precondition failure (before execute), or the result of the
execute step, where `none` models an invalid store access during execute. -/
inductive CmdOutcome (α : Type) where
  | preconditionFailure (msg : String)
  | executed (result : Option α)
deriving DecidableEq

/-- The alice command harness: every validity rule is checked before
`execute` runs; the first failing rule aborts the command with its
message. -/
def runCommand (rules : List (Bool × String)) (exec : Unit → Option α) :
    CmdOutcome α :=
  match rules.find? (fun r => !r.1) with
  | some r => .preconditionFailure r.2
  | none => .executed (exec ())

/-- `has_store_element<T>( env )`: the store must hold a current element. -/
def has_store_element (store : List α) : Bool × String :=
  (!store.isEmpty, "no current store element")

/-- `unique_names_command::validity_rules`: only the store-element check. -/
def unique_names_validity_rules (store : List α) : List (Bool × String) :=
  [has_store_element store]

/-- `esop_command::validity_rules`: store-element check plus the option
checks, all evaluated before execute. -/
def esop_validity_rules (store : List α) (filenameSet : Bool)
    (minimize : Nat) (collapseBdd : Bool) (numOutputs : Nat) :
    List (Bool × String) :=
  [has_store_element store,
   (filenameSet, "filename must be set"),
   (decide (minimize ≤ 2), "invalid value for minimize"),
   (!collapseBdd || decide (numOutputs = 1),
    "selected collapsing method can only be applied to single-output functions")]

/-- `worstcase_command` defines no validity rules: the base-class default
(an empty rule list) is used. -/
def worstcase_validity_rules : List (Bool × String) := []

/-- `worstcase_command::execute`: reads `aigs[id1]` and `aigs[id2]` from the
AIG store with no prior check; an out-of-range store access is modelled as
`none`. -/
def worstcase_execute (store : List α) (id1 id2 : Nat) (wc : α → α → Nat) :
    Option Nat :=
  match store[id1]?, store[id2]? with
  | some x, some y => some (wc x y)
  | _, _ => none

/-- Running the `worstcase` command through the harness. -/
def worstcase_run (store : List α) (id1 id2 : Nat) (wc : α → α → Nat) :
    CmdOutcome Nat :=
  runCommand worstcase_validity_rules (fun _ => worstcase_execute store id1 id2 wc)

/-- Running the `unique_names` command through the harness, with its execute
step abstracted. -/
def unique_names_run (store : List α) (exec : Unit → Option α) : CmdOutcome α :=
  runCommand (unique_names_validity_rules store) exec

/-- Running the `esop` command through the harness, with its execute step
abstracted. -/
def esop_run (store : List α) (filenameSet : Bool) (minimize : Nat)
    (collapseBdd : Bool) (numOutputs : Nat) (exec : Unit → Option β) :
    CmdOutcome β :=
  runCommand (esop_validity_rules store filenameSet minimize collapseBdd numOutputs) exec

/-! ### Reversible-circuit cost functions (src/reversible/utils/costs.cpp) -/

/-- A reversible gate: control lines, target lines, and, for a module gate,
the referenced sub-circuit (line count and gate list). -/
inductive Gate where
  | mk (controls targets : List Nat) (sub : Option (Nat × List Gate)) : Gate

/-- The control lines of a gate. -/
def Gate.controls : Gate → List Nat
  | .mk c _ _ => c

/-- Is the gate a module reference? -/
def Gate.isModule : Gate → Bool
  | .mk _ _ s => s.isSome

/-- A reversible circuit: its line count and gate list. -/
structure Circuit where
  lines : Nat
  gates : List Gate

/-- `transistor_costs::operator()`: 8 transistors per control line,
independent of the circuit's line count. -/
def transistor_costs (g : Gate) (_lines : Nat) : Nat := 8 * g.controls.length

/-- `costs_visitor::operator()( costs_by_gate_func )`: sum the by-gate cost
function over the gates, recursing into module gates with the module's own
circuit. -/
def costsByGate (f : Gate → Nat → Nat) : Nat → List Gate → Nat
  | _, [] => 0
  | lines, .mk c t none :: gs =>
    f (.mk c t none) lines + costsByGate f lines gs
  | lines, .mk _ _ (some (sl, sg)) :: gs =>
    costsByGate f sl sg + costsByGate f lines gs

/-- `costs( circ, f )` for a by-gate cost function `f`. -/
def costs (circ : Circuit) (f : Gate → Nat → Nat) : Nat :=
  costsByGate f circ.lines circ.gates

theorem costsByGate_no_modules (f : Gate → Nat → Nat) (lines : Nat) :
    ∀ gs : List Gate, (∀ g ∈ gs, g.isModule = false) →
      costsByGate f lines gs = (gs.map (fun g => f g lines)).sum := by
  intro gs
  induction gs with
  | nil => intro h; simp [costsByGate]
  | cons g gs ih =>
    intro h
    cases g with
    | mk c t s =>
      cases s with
      | none =>
        simp only [costsByGate, List.map_cons, List.sum_cons]
        rw [ih (fun g hg => h g (by simp [hg]))]
      | some p =>
        exfalso
        have := h (.mk c t (some p)) (by simp)
        simp [Gate.isModule] at this

/-! ### Cone extraction by output names (cone_command::execute) -/

/-- The name-resolution loop of `cone_command::execute`: for each output
name, resolve it to an output index and append it to the index list only if
it is not already present. -/
def cone_resolve_indexes (resolve : String → Nat) (names : List String)
    (idxs : List Nat) : List Nat :=
  names.foldl (fun acc name =>
    if resolve name ∈ acc then acc else acc ++ [resolve name]) idxs

theorem cone_resolve_spec (resolve : String → Nat) :
    ∀ (names : List String) (idxs : List Nat),
      ∃ added, cone_resolve_indexes resolve names idxs = idxs ++ added ∧
        added.Nodup ∧ ∀ a ∈ added, a ∉ idxs := by
  intro names
  induction names with
  | nil =>
    intro idxs
    exact ⟨[], by simp [cone_resolve_indexes], List.nodup_nil, by simp⟩
  | cons name rest ih =>
    intro idxs
    show ∃ added, cone_resolve_indexes resolve rest
        (if resolve name ∈ idxs then idxs else idxs ++ [resolve name])
        = idxs ++ added ∧ _
    by_cases hmem : resolve name ∈ idxs
    · rw [if_pos hmem]
      exact ih idxs
    · rw [if_neg hmem]
      obtain ⟨added, heq, hnd, hnin⟩ := ih (idxs ++ [resolve name])
      refine ⟨resolve name :: added, ?_, ?_, ?_⟩
      · rw [heq, List.append_assoc]
        rfl
      · refine List.Nodup.cons ?_ hnd
        intro hcon
        exact hnin (resolve name) hcon (by simp)
      · intro a ha
        rcases List.mem_cons.mp ha with rfl | ha2
        · exact hmem
        · intro hcon
          exact hnin a ha2 (by simp [hcon])

/-! ### Concrete networks used as witnesses and counterexamples -/

/-- Assignment mapping every input to true. -/
def envAllTrue : Nat → Bool := fun _ => true

/-- A two-output majority graph; both outputs read the same input node with
positive polarity. -/
def migTwoOutA : NetGraph :=
  ⟨[.const0, .pi 0], [(⟨1, false⟩, "o0"), (⟨1, false⟩, "o1")]⟩

/-- Like `migTwoOutA` but with the second output complemented: a different
two-output function. -/
def migTwoOutB : NetGraph :=
  ⟨[.const0, .pi 0], [(⟨1, false⟩, "o0"), (⟨1, true⟩, "o1")]⟩

/-- The 3-AND XOR AND-inverter network of the spec's concrete scenario. -/
def aigXor : NetGraph :=
  ⟨[.const0, .pi 0, .pi 1,
    .gate .and2 [⟨1, false⟩, ⟨2, true⟩],
    .gate .and2 [⟨1, true⟩, ⟨2, false⟩],
    .gate .and2 [⟨3, true⟩, ⟨4, true⟩]],
   [(⟨5, true⟩, "f")]⟩

/-- A single-majority-gate majority graph. -/
def migMajNet : NetGraph :=
  ⟨[.const0, .pi 0, .pi 1, .pi 2,
    .gate .maj3 [⟨1, false⟩, ⟨2, false⟩, ⟨3, false⟩]],
   [(⟨4, false⟩, "m")]⟩

/-- A mixed graph with one XOR and one majority gate. -/
def xmgMixNet : NetGraph :=
  ⟨[.const0, .pi 0, .pi 1,
    .gate .xor2 [⟨1, false⟩, ⟨2, false⟩],
    .gate .maj3 [⟨1, false⟩, ⟨2, false⟩, ⟨3, false⟩]],
   [(⟨4, false⟩, "x")]⟩

/-- The graph→expression conversions realize exactly the function of the
first primary output. -/
theorem graph_expr_first_mig (g : NetGraph) (env : Nat → Bool)
    (hne : g.outputs ≠ []) :
    (convert_mig_to_expression g).eval env = (g.simulate env).getD 0 false := by
  unfold convert_mig_to_expression mig_to_expression
  rw [edgeToExpr_sound]
  show edgeVal (accMap (evalNode env) [] g.nodes) (g.outputs.getD 0 (cEdge, "")).1
      = (g.outputs.map (fun o => edgeVal (g.vals env) o.1)).getD 0 false
  cases ho : g.outputs with
  | nil => exact absurd ho hne
  | cons o os => rfl

theorem graph_expr_first_xmg (g : NetGraph) (env : Nat → Bool)
    (hne : g.outputs ≠ []) :
    (convert_xmg_to_expression g).eval env = (g.simulate env).getD 0 false := by
  unfold convert_xmg_to_expression xmg_to_expression
  rw [edgeToExpr_sound]
  show edgeVal (accMap (evalNode env) [] g.nodes) (g.outputs.getD 0 (cEdge, "")).1
      = (g.outputs.map (fun o => edgeVal (g.vals env) o.1)).getD 0 false
  cases ho : g.outputs with
  | nil => exact absurd ho hne
  | cons o os => rfl

theorem expr_to_mig_spec (e : Expr) (env : Nat → Bool) :
    (convert_expression_to_mig e).simulate env = [e.eval env]
      ∧ (convert_expression_to_mig e).outNames = ["f"] := by
  constructor
  · show [edgeVal ((convert_expression_to_mig e).vals env)
        (mig_from_expression ⟨[NodeK.const0]⟩ e).2] = [e.eval env]
    congr 1
    have h := exprToNet_sound false env e ⟨[NodeK.const0]⟩ rfl
    exact h.2.2
  · rfl

theorem expr_to_xmg_spec (e : Expr) (env : Nat → Bool) :
    (convert_expression_to_xmg e).simulate env = [e.eval env]
      ∧ (convert_expression_to_xmg e).outNames = ["f"] := by
  constructor
  · show [edgeVal ((convert_expression_to_xmg e).vals env)
        (xmg_from_expression ⟨[NodeK.const0]⟩ e).2] = [e.eval env]
    congr 1
    have h := exprToNet_sound true env e ⟨[NodeK.const0]⟩ rfl
    exact h.2.2
  · rfl

theorem size_eq_internal (g : NetGraph) (h : num_consts g = 1) :
    size_statistic g = num_internal g := by
  unfold size_statistic num_internal NetGraph.numPis
  unfold num_consts at h
  have := count_partition g.nodes
  omega

/-! ### The claims -/

/-- C1 (counterexample): the conversions between graph representations and
expressions do NOT preserve output count, order and names: the MIG→Expression
conversion reads only `outputs.front()`, so the two-output networks
`migTwoOutA` and `migTwoOutB`, which realize different output functions,
convert to the SAME expression — no single conversion result can realize the
exact function of both sources at every output; and the Expression→MIG
conversion names its only output "f" regardless of the source. -/
theorem claim_C1_counterexample :
    convert_mig_to_expression migTwoOutA = convert_mig_to_expression migTwoOutB
    ∧ migTwoOutA.simulate envAllTrue ≠ migTwoOutB.simulate envAllTrue
    ∧ (convert_expression_to_mig (Expr.var 0)).outNames = ["f"] := by
  refine ⟨rfl, ?_, rfl⟩
  decide

/-- C1 (amended): the graph→expression conversions (MIG→Expression,
XMG→Expression) realize exactly the Boolean function of the source's FIRST
primary output (later outputs are dropped); the expression→graph conversions
(Expression→MIG, Expression→XMG) produce a network with exactly one primary
output, named "f", realizing the expression's function. -/
theorem claim_C1 :
    (∀ (g : NetGraph) (env : Nat → Bool), g.outputs ≠ [] →
      (convert_mig_to_expression g).eval env = (g.simulate env).getD 0 false)
    ∧ (∀ (g : NetGraph) (env : Nat → Bool), g.outputs ≠ [] →
      (convert_xmg_to_expression g).eval env = (g.simulate env).getD 0 false)
    ∧ (∀ (e : Expr) (env : Nat → Bool),
      (convert_expression_to_mig e).simulate env = [e.eval env]
        ∧ (convert_expression_to_mig e).outNames = ["f"])
    ∧ (∀ (e : Expr) (env : Nat → Bool),
      (convert_expression_to_xmg e).simulate env = [e.eval env]
        ∧ (convert_expression_to_xmg e).outNames = ["f"]) :=
  ⟨graph_expr_first_mig, graph_expr_first_xmg, expr_to_mig_spec, expr_to_xmg_spec⟩

theorem claim_C1_witness :
    (migTwoOutA.outputs ≠ [] ∧
      (convert_mig_to_expression migTwoOutA).eval envAllTrue
        = (migTwoOutA.simulate envAllTrue).getD 0 false) ∧
    (convert_expression_to_mig (Expr.var 0)).simulate envAllTrue
      = [(Expr.var 0).eval envAllTrue] :=
  ⟨⟨List.cons_ne_nil _ _,
    claim_C1.1 migTwoOutA envAllTrue (List.cons_ne_nil _ _)⟩,
   (claim_C1.2.2.1 (Expr.var 0) envAllTrue).1⟩

/-- C2: for every network of one graph representation (AND-inverter,
majority, mixed) with at most 10 inputs, converting to the paired
representation and back realizes the same output functions for all input
assignments — all six round trips AIG↔MIG, AIG↔XMG, MIG↔XMG. -/
theorem claim_C2 :
    (∀ (g : NetGraph) (env : Nat → Bool),
      g.legal aigKinds = true → g.numPis ≤ 10 →
      (mig_to_aig (aig_to_mig g)).simulate env = g.simulate env)
    ∧ (∀ (g : NetGraph) (env : Nat → Bool),
      g.legal migKinds = true → g.numPis ≤ 10 →
      (aig_to_mig (mig_to_aig g)).simulate env = g.simulate env)
    ∧ (∀ (g : NetGraph) (env : Nat → Bool),
      g.legal aigKinds = true → g.numPis ≤ 10 →
      (xmg_create_aig_topological (xmg_from_aig g)).simulate env = g.simulate env)
    ∧ (∀ (g : NetGraph) (env : Nat → Bool),
      g.legal xmgKinds = true → g.numPis ≤ 10 →
      (xmg_from_aig (xmg_create_aig_topological g)).simulate env = g.simulate env)
    ∧ (∀ (g : NetGraph) (env : Nat → Bool),
      g.legal migKinds = true → g.numPis ≤ 10 →
      (xmg_create_mig_topological (xmg_from_mig g)).simulate env = g.simulate env)
    ∧ (∀ (g : NetGraph) (env : Nat → Bool),
      g.legal xmgKinds = true → g.numPis ≤ 10 →
      (xmg_from_mig (xmg_create_mig_topological g)).simulate env = g.simulate env) := by
  refine ⟨?_, ?_, ?_, ?_, ?_, ?_⟩
  · intro g env hleg hpis
    obtain ⟨hl1, _, hs1⟩ := aig_to_mig_sound g hleg
    obtain ⟨_, _, hs2⟩ := mig_to_aig_sound (aig_to_mig g) hl1
    rw [hs2 env, hs1 env]
  · intro g env hleg hpis
    obtain ⟨hl1, _, hs1⟩ := mig_to_aig_sound g hleg
    obtain ⟨_, _, hs2⟩ := aig_to_mig_sound (mig_to_aig g) hl1
    rw [hs2 env, hs1 env]
  · intro g env hleg hpis
    obtain ⟨hl1, _, hs1⟩ := xmg_from_aig_sound g hleg
    obtain ⟨_, _, hs2⟩ := xmg_to_aig_sound (xmg_from_aig g) hl1
    rw [hs2 env, hs1 env]
  · intro g env hleg hpis
    obtain ⟨hl1, _, hs1⟩ := xmg_to_aig_sound g hleg
    obtain ⟨_, _, hs2⟩ := xmg_from_aig_sound (xmg_create_aig_topological g) hl1
    rw [hs2 env, hs1 env]
  · intro g env hleg hpis
    obtain ⟨hl1, _, hs1⟩ := xmg_from_mig_sound g hleg
    obtain ⟨_, _, hs2⟩ := xmg_to_mig_sound (xmg_from_mig g) hl1
    rw [hs2 env, hs1 env]
  · intro g env hleg hpis
    obtain ⟨hl1, _, hs1⟩ := xmg_to_mig_sound g hleg
    obtain ⟨_, _, hs2⟩ := xmg_from_mig_sound (xmg_create_mig_topological g) hl1
    rw [hs2 env, hs1 env]

theorem claim_C2_witness :
    (aigXor.legal aigKinds = true ∧ aigXor.numPis ≤ 10 ∧
      (mig_to_aig (aig_to_mig aigXor)).simulate envAllTrue
        = aigXor.simulate envAllTrue) ∧
    (migMajNet.legal migKinds = true ∧ migMajNet.numPis ≤ 10 ∧
      (aig_to_mig (mig_to_aig migMajNet)).simulate envAllTrue
        = migMajNet.simulate envAllTrue) ∧
    ((xmg_create_aig_topological (xmg_from_aig aigXor)).simulate envAllTrue
        = aigXor.simulate envAllTrue) ∧
    (xmgMixNet.legal xmgKinds = true ∧ xmgMixNet.numPis ≤ 10 ∧
      (xmg_from_aig (xmg_create_aig_topological xmgMixNet)).simulate envAllTrue
        = xmgMixNet.simulate envAllTrue) ∧
    ((xmg_create_mig_topological (xmg_from_mig migMajNet)).simulate envAllTrue
        = migMajNet.simulate envAllTrue) ∧
    ((xmg_from_mig (xmg_create_mig_topological xmgMixNet)).simulate envAllTrue
        = xmgMixNet.simulate envAllTrue) :=
  ⟨⟨by decide, by decide,
    claim_C2.1 aigXor envAllTrue (by decide) (by decide)⟩,
   ⟨by decide, by decide,
    claim_C2.2.1 migMajNet envAllTrue (by decide) (by decide)⟩,
   claim_C2.2.2.1 aigXor envAllTrue (by decide) (by decide),
   ⟨by decide, by decide,
    claim_C2.2.2.2.1 xmgMixNet envAllTrue (by decide) (by decide)⟩,
   claim_C2.2.2.2.2.1 migMajNet envAllTrue (by decide) (by decide),
   claim_C2.2.2.2.2.2 xmgMixNet envAllTrue (by decide) (by decide)⟩

/-- C3: for every AIG network, the graph-to-BooleanFunctionSet extraction
produces exactly one decision-diagram function handle per primary output, in
the network's output-list order (the j-th handle holds the j-th output's
exact function), and all handles are created within the one shared manager
returned with them (every handle indexes that manager's table). -/
theorem claim_C3 (n : Nat) (g : NetGraph) :
    (convert_aig_to_bdd n g).2.length = g.outputs.length ∧
    (convert_aig_to_bdd n g).1.numVars = n ∧
    ∀ j, j < g.outputs.length →
      (convert_aig_to_bdd n g).2.getD j 0
          < (convert_aig_to_bdd n g).1.table.length ∧
      (convert_aig_to_bdd n g).1.table.getD
          ((convert_aig_to_bdd n g).2.getD j 0) []
        = tabOf n (fun a => (g.simulate (envOf a)).getD j false) := by
  obtain ⟨h1, h2, h3⟩ := convert_aig_to_bdd_spec n g
  exact ⟨h2, h1, h3⟩

theorem claim_C3_witness :
    0 < aigXor.outputs.length ∧
    ((convert_aig_to_bdd 2 aigXor).2.getD 0 0
        < (convert_aig_to_bdd 2 aigXor).1.table.length ∧
      (convert_aig_to_bdd 2 aigXor).1.table.getD
          ((convert_aig_to_bdd 2 aigXor).2.getD 0 0) []
        = tabOf 2 (fun a => (aigXor.simulate (envOf a)).getD 0 false)) :=
  ⟨by decide, (claim_C3 2 aigXor).2.2 0 (by decide)⟩

/-- C4: for every BooleanFunctionSet over n ≤ 12 inputs, the minterm count
reported for each output equals brute-force enumeration of satisfying
assignments over the 2^n input assignments; the count is bounded by
2^n ≤ 2^12, well inside the 53-bit exactly-representable integer range of
the wide/floating accumulator, so the query cannot overflow. -/
theorem claim_C4 (n : Nat) (g : NetGraph) (j : Nat)
    (hn : n ≤ 12) (hj : j < g.outputs.length) :
    minterm_count (convert_aig_to_bdd n g).1 ((convert_aig_to_bdd n g).2.getD j 0)
      = brute_minterm_count n g j ∧
    brute_minterm_count n g j ≤ 2 ^ n ∧
    brute_minterm_count n g j < 2 ^ 53 := by
  refine ⟨minterm_count_exact n g j hj, brute_minterm_count_le n g j, ?_⟩
  calc brute_minterm_count n g j ≤ 2 ^ n := brute_minterm_count_le n g j
    _ ≤ 2 ^ 12 := Nat.pow_le_pow_right (by omega) hn
    _ < 2 ^ 53 := by norm_num

theorem claim_C4_witness :
    (2 ≤ 12 ∧ 0 < aigXor.outputs.length) ∧
    (minterm_count (convert_aig_to_bdd 2 aigXor).1
        ((convert_aig_to_bdd 2 aigXor).2.getD 0 0)
      = brute_minterm_count 2 aigXor 0 ∧
    brute_minterm_count 2 aigXor 0 ≤ 2 ^ 2 ∧
    brute_minterm_count 2 aigXor 0 < 2 ^ 53) :=
  ⟨⟨by decide, by decide⟩, claim_C4 2 aigXor 0 (by decide) (by decide)⟩

/-- C5: for every network with exactly one constant node (as the AIG/MIG
constructors guarantee), the size statistic reported by `log_statistics` —
number of graph vertices minus the primary-input count minus one — equals
the count of internal (gate) nodes. -/
theorem claim_C5 (g : NetGraph) (h : num_consts g = 1) :
    size_statistic g = num_internal g :=
  size_eq_internal g h

theorem claim_C5_witness :
    num_consts aigXor = 1 ∧ size_statistic aigXor = num_internal aigXor :=
  ⟨by decide, claim_C5 aigXor (by decide)⟩

/-- C6: for every network with exactly one constant node, the depth
statistic — maximum over the outputs' source-node levels, where
level(primary input) = 0 and level(internal node) = 1 + max of fan-in
levels — is at most the size statistic. -/
theorem claim_C6 (g : NetGraph) (h : num_consts g = 1) :
    compute_depth g ≤ size_statistic g := by
  rw [size_eq_internal g h]
  exact compute_depth_le_internal g

theorem claim_C6_witness :
    num_consts aigXor = 1 ∧ compute_depth aigXor ≤ size_statistic aigXor :=
  ⟨by decide, claim_C6 aigXor (by decide)⟩

/-- C7: for every parser outcome, the AIG file-reading command returns
normally; on a malformed input (parse error) it surfaces the
"[w] parse error" diagnostic and returns the default-constructed network,
and on success it returns the parsed network with no diagnostic — the
session continues in both cases. -/
theorem claim_C7 (parse : Option NetGraph) :
    (parse = none →
      aig_read_command parse = (["[w] parse error"], default_network)) ∧
    (∀ net, parse = some net → aig_read_command parse = ([], net)) := by
  constructor
  · intro h
    subst h
    rfl
  · intro net h
    subst h
    rfl

theorem claim_C7_witness :
    aig_read_command none = (["[w] parse error"], default_network) :=
  (claim_C7 none).1 rfl

/-- C8 (code bug): the claim — every command that requires a store entry
fails with a precondition failure before execute when the store is empty —
holds for the commands carrying `has_store_element` validity rules
(`unique_names`, `esop`), but `worstcase_command` declares no validity
rules: on an empty AIG store its execute step runs and dereferences the
missing entries `aigs[0]`/`aigs[1]` (modelled as `executed none`), instead
of failing a precondition before execute. -/
theorem claim_C8 :
    worstcase_run ([] : List Nat) 0 1 (fun x y => x + y)
      = CmdOutcome.executed none ∧
    unique_names_run ([] : List Nat) (fun _ => some 0)
      = CmdOutcome.preconditionFailure "no current store element" ∧
    esop_run ([] : List Nat) true 1 false 1 (fun _ => some (0 : Nat))
      = CmdOutcome.preconditionFailure "no current store element" :=
  ⟨rfl, rfl, rfl⟩

/-- C9: the transistor cost of any gate is exactly 8 times its number of
control lines, for every line count; and for every circuit without module
gates, the total cost under any by-gate cost function f is the sum of
f(g, lines) over the circuit's gates. -/
theorem claim_C9 :
    (∀ (c t : List Nat) (sub : Option (Nat × List Gate)) (lines : Nat),
      transistor_costs (Gate.mk c t sub) lines = 8 * c.length)
    ∧ ∀ (circ : Circuit) (f : Gate → Nat → Nat),
      (∀ g ∈ circ.gates, g.isModule = false) →
      costs circ f = (circ.gates.map (fun g => f g circ.lines)).sum := by
  constructor
  · intro c t sub lines
    rfl
  · intro circ f h
    exact costsByGate_no_modules f circ.lines circ.gates h

/-- A module-free two-gate circuit for the C9 witness. -/
def circW : Circuit :=
  ⟨3, [Gate.mk [0, 1] [2] none, Gate.mk [0] [1] none]⟩

theorem claim_C9_witness :
    (∀ g ∈ circW.gates, g.isModule = false) ∧
    costs circW transistor_costs
      = (circW.gates.map (fun g => transistor_costs g circW.lines)).sum :=
  ⟨by decide, claim_C9.2 circW transistor_costs (by decide)⟩

/-- C10: resolving output names to indexes in `cone_command::execute`
appends each resolved index only if it is not already present: after name
resolution the index list is the original explicit list followed by a
duplicate-free block of resolved indexes none of which was already given
explicitly — an index given both by name and explicitly is kept once. -/
theorem claim_C10 (resolve : String → Nat) (names : List String)
    (idxs : List Nat) :
    ∃ added, cone_resolve_indexes resolve names idxs = idxs ++ added ∧
      added.Nodup ∧ ∀ a ∈ added, a ∉ idxs :=
  cone_resolve_spec resolve names idxs
